/-
Verification of the locking and atomic-update subsystem
(app/services/file_lock_service.py) against its specification.

The development shallowly embeds the Python code:
 - JSON documents become the inductive type `Json` (numbers are modelled as
   integers; floating point is outside the model).  `dumps` mirrors
   `json.dump(data, f, ensure_ascii=False, indent=2)` and `loads` mirrors
   `json.load` (Python's pure-python scanner, including its whitespace
   handling, escape handling and dict-assignment semantics for object keys).
 - File paths become `PyPath` (a pathlib `Path` after construction, i.e. the
   list of components with `.` segments already dropped and `..` kept).
 - The filesystem becomes a map from paths to file contents; fallible
   primitives (mutex acquisition, serialization, rename) are driven by
   explicit outcome oracles, and each operation also returns the list of
   lock-related events it performed, in order.
 - The concurrency claim is settled over a small-step interleaving machine
   whose per-thread program is the critical section of `safe_json_update`.
-/
import Mathlib

namespace FileLockService

/-! ## JSON documents

`Json` is the value space of the documents the store handles.  Numbers are
integers (Python also serializes floats; floating point is outside this
model).  Object members are ordered key/value pairs, as in a Python dict. -/

inductive Json where
  | null
  | bool (b : Bool)
  | num (n : Int)
  | str (s : List Char)
  | arr (elems : List Json)
  | obj (members : List (List Char × Json))

/-- Left brace, kept as a named character. -/
def lbr : Char := Char.ofNat 123

/-- Right brace, kept as a named character. -/
def rbr : Char := Char.ofNat 125

/-- Decimal digit character for `d < 10`. -/
def digitChar (d : Nat) : Char := Char.ofNat (48 + d)

/-- Lowercase hex digit character for `d < 16` (Python formats `\u` escapes
with `%04x`, lowercase). -/
def hexChar (d : Nat) : Char :=
  if d < 10 then Char.ofNat (48 + d) else Char.ofNat (87 + d)

/-- Decimal digits of `n`, least significant first. -/
def natDigitsRev (n : Nat) : List Char :=
  if h : n < 10 then [digitChar n]
  else digitChar (n % 10) :: natDigitsRev (n / 10)
termination_by n
decreasing_by simp_wf; omega

/-- Decimal digits of `n`, most significant first (what `repr(n)` prints). -/
def natDec (n : Nat) : List Char := (natDigitsRev n).reverse

/-- The characters `repr` prints for a Python int: optional minus sign then
decimal digits. -/
def intDec (i : Int) : List Char :=
  (if i < 0 then [Char.ofNat 45] else []) ++ natDec i.natAbs

/-- One character of a JSON string, escaped exactly as Python's encoder with
`ensure_ascii=False` does: `"` and `\` get a backslash, the control
characters with a one-letter form use it, the remaining control characters
become `\u00xx`, and everything else passes through. -/
def escapeChar (c : Char) : List Char :=
  if c = Char.ofNat 34 then [Char.ofNat 92, Char.ofNat 34]
  else if c = Char.ofNat 92 then [Char.ofNat 92, Char.ofNat 92]
  else if c = Char.ofNat 8 then [Char.ofNat 92, Char.ofNat 98]
  else if c = Char.ofNat 12 then [Char.ofNat 92, Char.ofNat 102]
  else if c = Char.ofNat 10 then [Char.ofNat 92, Char.ofNat 110]
  else if c = Char.ofNat 13 then [Char.ofNat 92, Char.ofNat 114]
  else if c = Char.ofNat 9 then [Char.ofNat 92, Char.ofNat 116]
  else if c.toNat < 32 then
    [Char.ofNat 92, Char.ofNat 117, Char.ofNat 48, Char.ofNat 48,
     hexChar (c.toNat / 16), hexChar (c.toNat % 16)]
  else [c]

/-- A serialized JSON string: quote, escaped body, quote. -/
def strDec (s : List Char) : List Char :=
  Char.ofNat 34 :: (s.flatMap escapeChar ++ [Char.ofNat 34])

/-- The newline-plus-indentation the encoder emits before an item nested at
`lvl` containers deep, for `indent=2`. -/
def nlIndent (lvl : Nat) : List Char :=
  Char.ofNat 10 :: List.replicate (2 * lvl) (Char.ofNat 32)

mutual
/-- Serialization of a value nested `lvl` containers deep: the output of
`json.dump(v, f, ensure_ascii=False, indent=2)` for the whole document when
`lvl = 0`. -/
def ser (lvl : Nat) : Json → List Char
  | .null => [Char.ofNat 110, Char.ofNat 117, Char.ofNat 108, Char.ofNat 108]
  | .bool true => [Char.ofNat 116, Char.ofNat 114, Char.ofNat 117, Char.ofNat 101]
  | .bool false =>
      [Char.ofNat 102, Char.ofNat 97, Char.ofNat 108, Char.ofNat 115, Char.ofNat 101]
  | .num i => intDec i
  | .str s => strDec s
  | .arr [] => [Char.ofNat 91, Char.ofNat 93]
  | .arr (x :: xs) =>
      Char.ofNat 91 :: (nlIndent (lvl + 1) ++ ser (lvl + 1) x ++
        serArrTail (lvl + 1) xs ++ nlIndent lvl ++ [Char.ofNat 93])
  | .obj [] => [lbr, rbr]
  | .obj (kv :: kvs) =>
      lbr :: (nlIndent (lvl + 1) ++ strDec kv.1 ++
        [Char.ofNat 58, Char.ofNat 32] ++ ser (lvl + 1) kv.2 ++
        serObjTail (lvl + 1) kvs ++ nlIndent lvl ++ [rbr])
/-- Second and later array items: item separator `,` then newline-indent. -/
def serArrTail (lvl : Nat) : List Json → List Char
  | [] => []
  | x :: xs => Char.ofNat 44 :: (nlIndent lvl ++ ser lvl x ++ serArrTail lvl xs)
/-- Second and later object members. -/
def serObjTail (lvl : Nat) : List (List Char × Json) → List Char
  | [] => []
  | kv :: kvs =>
      Char.ofNat 44 :: (nlIndent lvl ++ strDec kv.1 ++
        [Char.ofNat 58, Char.ofNat 32] ++ ser lvl kv.2 ++ serObjTail lvl kvs)
end

/-- The full document `json.dump` writes for `v`. -/
def dumps (v : Json) : List Char := ser 0 v

/-! ## The parser (`json.load`)

Mirrors Python's pure scanner: `scan_once` dispatches on the first
character (no leading whitespace of its own; callers skip whitespace),
strings via `py_scanstring` (strict mode: raw control characters are an
error; `\uXXXX` escapes combine surrogate pairs), numbers via `NUMBER_RE`
(`-?(0|[1-9]\d+...)` with optional fraction and exponent, either of which
makes a float — floats are outside this model, so such matches are mapped
to a parse failure), arrays and objects via `JSONArray`/`JSONObject` with
their whitespace handling, object members accumulated by dict assignment
(`pairs[key] = value`: an existing key is overwritten in place, a new key
appended).  `loads` requires the whole input to be one document plus
trailing whitespace, as `json.load` does.  Recursion is bounded by `fuel`;
`loads` supplies more fuel than any input can consume. -/

/-- Python's `json` whitespace: space, tab, newline, carriage return. -/
def isWsChar (c : Char) : Bool :=
  c.toNat = 32 || c.toNat = 9 || c.toNat = 10 || c.toNat = 13

/-- Skip a run of whitespace (the `_w(s, idx).end()` idiom). -/
def skipWs : List Char → List Char
  | [] => []
  | c :: r => if isWsChar c then skipWs r else c :: r

/-- Decimal digit test. -/
def isDig (c : Char) : Bool := 48 ≤ c.toNat && c.toNat ≤ 57

/-- Maximal run of decimal digits, and the remainder. -/
def takeDigits : List Char → List Char × List Char
  | [] => ([], [])
  | c :: r =>
      if isDig c then
        let p := takeDigits r
        (c :: p.1, p.2)
      else ([], c :: r)

/-- Numeric value of a run of decimal digits. -/
def digitsVal (ds : List Char) : Nat :=
  ds.foldl (fun a c => a * 10 + (c.toNat - 48)) 0

/-- Value of one hex digit, upper or lower case (`int(_, 16)`). -/
def hexVal (c : Char) : Option Nat :=
  if 48 ≤ c.toNat ∧ c.toNat ≤ 57 then some (c.toNat - 48)
  else if 97 ≤ c.toNat ∧ c.toNat ≤ 102 then some (c.toNat - 87)
  else if 65 ≤ c.toNat ∧ c.toNat ≤ 70 then some (c.toNat - 55)
  else none

/-- Value of a four-hex-digit escape body. -/
def hex4 (a b c d : Char) : Option Nat :=
  match hexVal a, hexVal b, hexVal c, hexVal d with
  | some va, some vb, some vc, some vd => some (((va * 16 + vb) * 16 + vc) * 16 + vd)
  | _, _, _, _ => none

/-- The one-character backslash escapes of `json.decoder.BACKSLASH`. -/
def bslashDecode (c : Char) : Option Char :=
  if c = Char.ofNat 34 then some (Char.ofNat 34)
  else if c = Char.ofNat 92 then some (Char.ofNat 92)
  else if c = Char.ofNat 47 then some (Char.ofNat 47)
  else if c = Char.ofNat 98 then some (Char.ofNat 8)
  else if c = Char.ofNat 102 then some (Char.ofNat 12)
  else if c = Char.ofNat 110 then some (Char.ofNat 10)
  else if c = Char.ofNat 114 then some (Char.ofNat 13)
  else if c = Char.ofNat 116 then some (Char.ofNat 9)
  else none

/-- `py_scanstring` after the opening quote, strict mode.  A lone surrogate
is kept by Python; Lean's `Char` cannot hold one, so that unreachable-here
case goes through `Char.ofNat`'s fallback. -/
def scanString (fuel : Nat) (acc : List Char) : List Char → Option (List Char × List Char)
  | [] => none
  | c :: rest =>
    match fuel with
    | 0 => none
    | fuel + 1 =>
      if c = Char.ofNat 34 then some (acc.reverse, rest)
      else if c = Char.ofNat 92 then
        match rest with
        | [] => none
        | e :: r2 =>
            if e = Char.ofNat 117 then
              match r2 with
              | a :: b :: c2 :: d :: r3 =>
                  match hex4 a b c2 d with
                  | none => none
                  | some n =>
                      if 55296 ≤ n ∧ n ≤ 56319 then
                        match r3 with
                        | e2 :: u2 :: a2 :: b2 :: c3 :: d2 :: r4 =>
                            if e2 = Char.ofNat 92 ∧ u2 = Char.ofNat 117 then
                              match hex4 a2 b2 c3 d2 with
                              | none => none
                              | some m =>
                                  if 56320 ≤ m ∧ m ≤ 57343 then
                                    scanString fuel
                                      (Char.ofNat (65536 + (n - 55296) * 1024 + (m - 56320)) :: acc) r4
                                  else scanString fuel (Char.ofNat n :: acc) r3
                            else scanString fuel (Char.ofNat n :: acc) r3
                        | _ => scanString fuel (Char.ofNat n :: acc) r3
                      else scanString fuel (Char.ofNat n :: acc) r3
              | _ => none
            else
              match bslashDecode e with
              | some ch => scanString fuel (ch :: acc) r2
              | none => none
      else if c.toNat < 32 then none
      else scanString fuel (c :: acc) rest

/-- Does the remainder begin with a fraction part (`.` plus a digit)? -/
def fracHere : List Char → Bool
  | c :: d :: _ => c = Char.ofNat 46 && isDig d
  | _ => false

/-- At least one digit after an optional sign. -/
def expDigits : List Char → Bool
  | [] => false
  | c :: rest =>
      if c = Char.ofNat 43 || c = Char.ofNat 45 then
        match rest with
        | d :: _ => isDig d
        | [] => false
      else isDig c

/-- Does the remainder begin with an exponent part (`[eE][-+]?\d+`)? -/
def expHere : List Char → Bool
  | [] => false
  | c :: rest => (c = Char.ofNat 101 || c = Char.ofNat 69) && expDigits rest

/-- The optional leading minus of `NUMBER_RE`. -/
def signSplit (s : List Char) : Bool × List Char :=
  match s with
  | c :: r => if c = Char.ofNat 45 then (true, r) else (false, s)
  | [] => (false, s)

/-- The integer group of `NUMBER_RE`: `0` alone, or a nonzero digit
followed by the maximal digit run (no leading zeros). -/
def intPart : List Char → Option (Nat × List Char)
  | [] => none
  | c :: r =>
      if c = digitChar 0 then some (0, r)
      else if isDig c then
        let q := takeDigits r
        some (digitsVal (c :: q.1), q.2)
      else none

/-- `NUMBER_RE.match`: optional minus, the integer group, then optional
fraction and exponent.  A fraction or exponent makes the number a float,
which this model does not cover, so those matches fail here. -/
def matchNumber (s : List Char) : Option (Json × List Char) :=
  let p := signSplit s
  match intPart p.2 with
  | none => none
  | some (v, s2) =>
      if fracHere s2 || expHere s2 then none
      else some (.num (if p.1 then -(v : Int) else (v : Int)), s2)

/-- A remainder that cannot extend a serialized number: empty, or headed
by a character that is neither a digit nor `.`, `e`, `E`.  Every position
a serialized value is followed by (a comma, a newline, a closing bracket
or brace, end of input) qualifies. -/
def numDelim : List Char → Bool
  | [] => true
  | c :: _ =>
      !(isDig c || c = Char.ofNat 46 || c = Char.ofNat 101 || c = Char.ofNat 69)

/-- Dict assignment `pairs[key] = value`: overwrite in place, else append. -/
def insertPair (ps : List (List Char × Json)) (k : List Char) (v : Json) :
    List (List Char × Json) :=
  match ps with
  | [] => [(k, v)]
  | (k1, v1) :: t => if k1 = k then (k1, v) :: t else (k1, v1) :: insertPair t k v

/-- The literal `null`. -/
def litNull : List Char := [Char.ofNat 110, Char.ofNat 117, Char.ofNat 108, Char.ofNat 108]

/-- The literal `true`. -/
def litTrue : List Char := [Char.ofNat 116, Char.ofNat 114, Char.ofNat 117, Char.ofNat 101]

/-- The literal `false`. -/
def litFalse : List Char :=
  [Char.ofNat 102, Char.ofNat 97, Char.ofNat 108, Char.ofNat 115, Char.ofNat 101]

mutual
/-- `scan_once`: dispatch on the first character.  The array and object
branches are `JSONArray` and `JSONObject` inlined up to their first
character of interest. -/
def parseVal (fuel : Nat) (s : List Char) : Option (Json × List Char) :=
  match fuel with
  | 0 => none
  | fuel + 1 =>
      match s with
      | [] => none
      | c :: r =>
          if c = Char.ofNat 34 then
            match scanString (r.length + 1) [] r with
            | some (t, r2) => some (.str t, r2)
            | none => none
          else if c = lbr then
            match skipWs r with
            | [] => none
            | c2 :: r2 =>
                if c2 = rbr then some (.obj [], r2)
                else
                  match parseObjLoop fuel [] (c2 :: r2) with
                  | some (kvs, r3) => some (.obj kvs, r3)
                  | none => none
          else if c = Char.ofNat 91 then
            match skipWs r with
            | [] => none
            | c2 :: r2 =>
                if c2 = Char.ofNat 93 then some (.arr [], r2)
                else
                  match parseArrLoop fuel (c2 :: r2) with
                  | some (vs, r3) => some (.arr vs, r3)
                  | none => none
          else if litNull.isPrefixOf s then some (.null, s.drop 4)
          else if litTrue.isPrefixOf s then some (.bool true, s.drop 4)
          else if litFalse.isPrefixOf s then some (.bool false, s.drop 5)
          else matchNumber s
/-- The `JSONArray` loop: one value, then `,` and recurse or `]` and stop. -/
def parseArrLoop (fuel : Nat) (s : List Char) : Option (List Json × List Char) :=
  match fuel with
  | 0 => none
  | fuel + 1 =>
      match parseVal fuel s with
      | none => none
      | some (v, r) =>
          match skipWs r with
          | [] => none
          | c :: r2 =>
              if c = Char.ofNat 93 then some ([v], r2)
              else if c = Char.ofNat 44 then
                match parseArrLoop fuel (skipWs r2) with
                | some (vs, r3) => some (v :: vs, r3)
                | none => none
              else none
/-- The `JSONObject` loop: a quoted key, `:`, a value, accumulate by dict
assignment, then `,` and recurse or the closing brace and stop. -/
def parseObjLoop (fuel : Nat) (acc : List (List Char × Json)) (s : List Char) :
    Option (List (List Char × Json) × List Char) :=
  match fuel with
  | 0 => none
  | fuel + 1 =>
      match s with
      | [] => none
      | c :: r =>
          if c = Char.ofNat 34 then
            match scanString (r.length + 1) [] r with
            | none => none
            | some (k, r1) =>
                match skipWs r1 with
                | [] => none
                | c2 :: r2 =>
                    if c2 = Char.ofNat 58 then
                      match parseVal fuel (skipWs r2) with
                      | none => none
                      | some (v, r3) =>
                          match skipWs r3 with
                          | [] => none
                          | c3 :: r4 =>
                              if c3 = rbr then some (insertPair acc k v, r4)
                              else if c3 = Char.ofNat 44 then
                                parseObjLoop fuel (insertPair acc k v) (skipWs r4)
                              else none
                    else none
          else none
end

/-- `json.load`: skip whitespace, scan one document, require only trailing
whitespace. -/
def loads (s : List Char) : Option Json :=
  match parseVal (s.length + 1) (skipWs s) with
  | some (v, r) => if skipWs r = [] then some v else none
  | none => none

/-! ## Well-formed documents

A document that can come from Python data: object keys are distinct at
every level (a Python dict cannot hold duplicate keys).  This is the only
precondition the round trip needs. -/

/-- `k` does not occur among the keys of `kvs`. -/
def noKey (k : List Char) (kvs : List (List Char × Json)) : Bool :=
  kvs.all (fun kv => decide (kv.1 ≠ k))

mutual
/-- Object keys are distinct at every nesting level. -/
def wf : Json → Bool
  | .null => true
  | .bool _ => true
  | .num _ => true
  | .str _ => true
  | .arr xs => wfList xs
  | .obj kvs => wfPairs kvs
/-- `wf` on every element. -/
def wfList : List Json → Bool
  | [] => true
  | x :: xs => wf x && wfList xs
/-- Distinct keys, and `wf` on every member value. -/
def wfPairs : List (List Char × Json) → Bool
  | [] => true
  | kv :: kvs => noKey kv.1 kvs && wf kv.2 && wfPairs kvs
end

/-! ## Paths

A `pathlib.Path` after construction: the parser has already split on `/`,
dropped `.` components and collapsed duplicate slashes, and kept `..`
components.  Components never contain a slash. -/

structure PyPath where
  /-- Does the path start at the root? -/
  isAbs : Bool
  /-- The components, in order (`Path.parts` without the root entry). -/
  comps : List (List Char)
deriving DecidableEq

/-- `Path.absolute()`: prepend the working directory to a relative path; an
absolute path is returned unchanged.  No normalization of `..` happens. -/
def pathAbsolute (cwd : List (List Char)) (p : PyPath) : PyPath :=
  if p.isAbs then p else ⟨true, cwd ++ p.comps⟩

/-- Components joined by `/`. -/
def joinComps : List (List Char) → List Char
  | [] => []
  | [x] => x
  | x :: xs => x ++ Char.ofNat 47 :: joinComps xs

/-- `str(path)`. -/
def pathStr (p : PyPath) : List Char :=
  if p.isAbs then Char.ofNat 47 :: joinComps p.comps else joinComps p.comps

/-- The registry key `str(file_path.absolute())` of `_get_memory_lock`. -/
def lockKey (cwd : List (List Char)) (p : PyPath) : List Char :=
  pathStr (pathAbsolute cwd p)

/-- `_get_memory_lock`: the mutex registry, modelled as the list of keys a
mutex exists for.  A mutex is identified by its key; the lookup returns the
key's mutex and inserts it into the registry if it was absent (under the
registry's own short-held lock, which serializes this step). -/
def getMemoryLock (reg : List (List Char)) (cwd : List (List Char)) (p : PyPath) :
    List Char × List (List Char) :=
  let key := lockKey cwd p
  (key, if reg.contains key then reg else key :: reg)

/-- Resolve `..` components left to right against a stack: what the spec's
"canonicalizes the path (absolute, normalized)" asks for, and what
`os.path.normpath` would do.  Used to state which file a spelling denotes. -/
def resolveComps (stack : List (List Char)) : List (List Char) → List (List Char)
  | [] => stack
  | c :: rest =>
      if c = [Char.ofNat 46, Char.ofNat 46] then resolveComps stack.dropLast rest
      else resolveComps (stack ++ [c]) rest

/-- The normalized absolute spelling of a path: which file it denotes. -/
def canonicalOf (cwd : List (List Char)) (p : PyPath) : List (List Char) :=
  resolveComps [] (pathAbsolute cwd p).comps

/-- The length of the final component's extension, including its dot, by
pathlib's rule: the part after the last dot, provided that dot is neither
the first nor the last character of the name.  Computed on the reversed
name: the distance to the first dot. -/
def extLenRev : List Char → Option Nat
  | [] => none
  | c :: t =>
      if c = Char.ofNat 46 then some 0
      else
        match extLenRev t with
        | some k => some (k + 1)
        | none => none

/-- `PurePath.suffix` applied to a name: `name[i:]` for the last dot at
`0 < i < len(name) - 1`, else empty. -/
def nameSuffix (name : List Char) : List Char :=
  match extLenRev name.reverse with
  | some k =>
      if 1 ≤ k ∧ k + 1 ≤ name.length - 1 then name.drop (name.length - 1 - k)
      else []
  | none => []

/-- `PurePath.with_suffix` applied to a name: drop the old suffix if there
is one, then append the new suffix. -/
def nameWithSuffix (name : List Char) (suf : List Char) : List Char :=
  let old := nameSuffix name
  if old = [] then name ++ suf else name.take (name.length - old.length) ++ suf

/-- `file_path.with_suffix('.tmp')`, the temp-file path of a write. -/
def withSuffixTmp (p : PyPath) : PyPath :=
  match p.comps.getLast? with
  | none => p
  | some name =>
      ⟨p.isAbs, p.comps.dropLast ++
        [nameWithSuffix name [Char.ofNat 46, Char.ofNat 116, Char.ofNat 109, Char.ofNat 112]]⟩

/-! ## The filesystem and the store operations

The filesystem maps a path to the file's text, `none` when absent.
Fallible primitives are driven by an explicit outcome oracle: whether the
in-process mutex was obtained within the timeout, whether `json.dump`
completed (with the bytes it had flushed when it failed), whether the
rename completed.  Logging is not modelled.  Each operation also reports
the ordered list of lock-related events it performed. -/

/-- The filesystem: file text by path. -/
def Fs : Type := PyPath → Option (List Char)

/-- Write or create a file. -/
def fsSet (fs : Fs) (p : PyPath) (content : List Char) : Fs :=
  fun q => if q = p then some content else fs q

/-- `unlink` (no error if absent, matching the guarded cleanup). -/
def fsRemove (fs : Fs) (p : PyPath) : Fs :=
  fun q => if q = p then none else fs q

/-- Lock-related events, in the order an operation performs them. -/
inductive MEvent where
  | acquireMem (key : List Char)
  | releaseMem (key : List Char)
  | advisoryAttempt
deriving DecidableEq

/-- Outcomes of the fallible primitives of one write-shaped operation. -/
structure WOutcome where
  /-- `memory_lock.acquire(timeout=timeout)` returned `True`. -/
  memOk : Bool
  /-- `json.dump` to the temp file ran to completion. -/
  dumpOk : Bool
  /-- The bytes the interrupted `json.dump` left in the temp file. -/
  dumpHalf : List Char
  /-- `temp_file.replace(file_path)` succeeded. -/
  renameOk : Bool
  /-- `update_func(data)` returned rather than raised. -/
  transformOk : Bool

/-- The all-success outcome. -/
def allOk : WOutcome := ⟨true, true, [], true, true⟩

/-- Result of a store operation: the returned value, the filesystem after
it, and the events it performed. -/
structure WResult (α : Type) where
  ret : α
  fs : Fs
  events : List MEvent

/-- `FileLockService.safe_json_write`: compute the temp path, take the
path's mutex, dump to the temp file, rename it over the target; on any
exception, delete the temp file if it exists and return `False`; the mutex
is released in the `finally` block.  The raised `TimeoutError` is caught by
the operation's own `except Exception` and becomes the same `False`. -/
def safe_json_write (cwd : List (List Char)) (fs : Fs) (p : PyPath) (data : Json)
    (o : WOutcome) : WResult Bool :=
  let temp := withSuffixTmp p
  let key := lockKey cwd p
  if ¬ o.memOk then
    -- TimeoutError raised; except: clean a (stale) temp file; return False
    ⟨false, fsRemove fs temp, [.acquireMem key]⟩
  else if ¬ o.dumpOk then
    -- json.dump failed mid-write; except: clean the temp file; return False
    ⟨false, fsRemove (fsSet fs temp o.dumpHalf) temp, [.acquireMem key, .releaseMem key]⟩
  else
    let fs1 := fsSet fs temp (dumps data)
    if ¬ o.renameOk then
      ⟨false, fsRemove fs1 temp, [.acquireMem key, .releaseMem key]⟩
    else
      ⟨true, fsSet (fsRemove fs1 temp) p (dumps data), [.acquireMem key, .releaseMem key]⟩

/-- `FileLockService.file_lock` up to its `yield`: take the path's mutex
(raising `TimeoutError` on expiry of the budget), create and open the file,
and attempt the OS advisory lock, which degrades but never raises.  `none`
models the raised `TimeoutError`. -/
def file_lock_acquire (cwd : List (List Char)) (fs : Fs) (p : PyPath) (memOk : Bool) :
    Option (Fs × List MEvent) :=
  let key := lockKey cwd p
  if ¬ memOk then none
  else
    let fs1 := match fs p with
      | some _ => fs           -- open(file_path, 'r+b')
      | none => fsSet fs p []  -- FileNotFoundError: open(file_path, 'w+b')
    some (fs1, [.acquireMem key, .advisoryAttempt])

/-- `FileLockService.safe_json_read`: return `default` when the file does
not exist; otherwise read and parse it under `file_lock`; any exception
(lock timeout, parse failure) is caught and `default` returned. -/
def safe_json_read (cwd : List (List Char)) (fs : Fs) (p : PyPath) (default : Json)
    (memOk : Bool) : WResult Json :=
  if (fs p).isSome then
    match file_lock_acquire cwd fs p memOk with
    | none => ⟨default, fs, [.acquireMem (lockKey cwd p)]⟩
    | some (fs1, evs) =>
        match fs1 p with
        | some content =>
            match loads content with
            | some v => ⟨v, fs1, evs ++ [.releaseMem (lockKey cwd p)]⟩
            | none => ⟨default, fs1, evs ++ [.releaseMem (lockKey cwd p)]⟩
        | none => ⟨default, fs1, evs ++ [.releaseMem (lockKey cwd p)]⟩
  else ⟨default, fs, []⟩

/-- `FileLockService.safe_json_update`: take the path's mutex, read and
parse the current document (an empty list when the file is absent), apply
`update_func`, dump to the temp file, rename it over the target; on any
exception return `False` — unlike `safe_json_write`, the `except` block
performs no temp-file cleanup.  The mutex is released in `finally`. -/
def safe_json_update (cwd : List (List Char)) (fs : Fs) (p : PyPath)
    (update_func : Json → Json) (o : WOutcome) : WResult Bool :=
  let key := lockKey cwd p
  if ¬ o.memOk then
    ⟨false, fs, [.acquireMem key]⟩
  else
    let rd : Option Json := match fs p with
      | some content => loads content
      | none => some (.arr [])
    match rd with
    | none => ⟨false, fs, [.acquireMem key, .releaseMem key]⟩  -- json.load raised
    | some data =>
        if ¬ o.transformOk then
          ⟨false, fs, [.acquireMem key, .releaseMem key]⟩      -- update_func raised
        else
          let temp := withSuffixTmp p
          let nd := update_func data
          if ¬ o.dumpOk then
            -- json.dump failed mid-write; no cleanup: the temp file stays
            ⟨false, fsSet fs temp o.dumpHalf, [.acquireMem key, .releaseMem key]⟩
          else
            let fs1 := fsSet fs temp (dumps nd)
            if ¬ o.renameOk then
              ⟨false, fs1, [.acquireMem key, .releaseMem key]⟩
            else
              ⟨true, fsSet (fsRemove fs1 temp) p (dumps nd),
                [.acquireMem key, .releaseMem key]⟩

/-- Whether the read step of `safe_json_update` would succeed on `fs`: the
file is absent (the empty default is used) or parses. -/
def updateReadOk (fs : Fs) (p : PyPath) : Bool :=
  match fs p with
  | some c => (loads c).isSome
  | none => true

/-! ## Concurrent updates on one path

An interleaving machine for N threads that each run
`safe_json_update(path, append marker)` on the same path.  The per-thread
program is the body of `safe_json_update` cut at its atomic actions:
acquire the path's mutex, read the document, write the transformed document
(the dump-plus-rename, atomic for observers), release the mutex.  The read
happens only after the acquire and the release only after the write,
exactly as in the source, where the whole sequence sits between
`memory_lock.acquire` and the `finally` release.  The document is the list
of the JSON array's elements, abstracted to the markers appended. -/

/-- Where one updater thread stands. -/
inductive TPhase where
  /-- Not yet acquired the mutex. -/
  | idle
  /-- Holds the mutex; has not read yet. -/
  | locked
  /-- Holds the mutex; read this snapshot of the document. -/
  | readDone (snap : List Nat)
  /-- Holds the mutex; wrote `snap ++ [marker]`. -/
  | written
  /-- Released the mutex. -/
  | finished
deriving DecidableEq

/-- Shared state: the document on disk, the mutex owner, each thread's
phase. -/
structure UMachine (n : Nat) where
  doc : List Nat
  owner : Option (Fin n)
  ph : Fin n → TPhase

/-- One atomic action of one thread of `safe_json_update`. -/
inductive UStep (n : Nat) (marker : Fin n → Nat) : UMachine n → UMachine n → Prop where
  /-- `memory_lock.acquire` succeeds only when nobody holds the mutex. -/
  | acquire (s : UMachine n) (t : Fin n) :
      s.ph t = .idle → s.owner = none →
      UStep n marker s ⟨s.doc, some t, Function.update s.ph t .locked⟩
  /-- `json.load` of the current document, under the mutex. -/
  | read (s : UMachine n) (t : Fin n) :
      s.ph t = .locked → s.owner = some t →
      UStep n marker s ⟨s.doc, s.owner, Function.update s.ph t (.readDone s.doc)⟩
  /-- `update_func` plus dump-plus-rename: the snapshot with this thread's
  marker appended becomes the document, under the mutex. -/
  | write (s : UMachine n) (t : Fin n) (snap : List Nat) :
      s.ph t = .readDone snap → s.owner = some t →
      UStep n marker s ⟨snap ++ [marker t], s.owner, Function.update s.ph t .written⟩
  /-- The `finally` release. -/
  | release (s : UMachine n) (t : Fin n) :
      s.ph t = .written → s.owner = some t →
      UStep n marker s ⟨s.doc, none, Function.update s.ph t .finished⟩

/-- The initial state: the document holds `init`, nobody holds the mutex,
every thread is about to call `safe_json_update`. -/
def uInit (n : Nat) (init : List Nat) : UMachine n := ⟨init, none, fun _ => .idle⟩

/-- All interleavings: the reflexive-transitive closure of single steps. -/
def UReach (n : Nat) (marker : Fin n → Nat) : UMachine n → UMachine n → Prop :=
  Relation.ReflTransGen (UStep n marker)

/-- The machine's invariant: only the mutex owner is inside the critical
section, a read snapshot is still the current document (nobody else can
write while the reader holds the mutex), and the document holds one copy
of a thread's marker exactly when that thread has written. -/
def UInv (n : Nat) (marker : Fin n → Nat) (s : UMachine n) : Prop :=
  (∀ t : Fin n, (s.ph t ≠ .idle ∧ s.ph t ≠ .finished) → s.owner = some t)
  ∧ (∀ (t : Fin n) (d : List Nat), s.ph t = .readDone d → s.doc = d)
  ∧ (∀ t : Fin n, s.doc.count (marker t)
      = (if s.ph t = .written ∨ s.ph t = .finished then 1 else 0))

/-- Two threads with markers `0` and `1`. -/
def marker2 : Fin 2 → Nat := fun t => t.val

/-- The state after the two-thread schedule where thread `0` runs its
whole update and then thread `1` runs its whole update. -/
def uRun2 : UMachine 2 :=
  ⟨[0, 1], none,
    Function.update (Function.update (Function.update (Function.update
      (Function.update (Function.update (Function.update (Function.update
        (fun _ => TPhase.idle) 0 TPhase.locked) 0 (TPhase.readDone []))
        0 TPhase.written) 0 TPhase.finished) 1 TPhase.locked)
        1 (TPhase.readDone [0])) 1 TPhase.written) 1 TPhase.finished⟩

/-! ## Concrete sample values, used by counterexamples and witnesses -/

/-- A relative path `data.json`. -/
def pData : PyPath := ⟨false, ["data.json".toList]⟩

/-- A relative path `data.xlsx` next to `pData`. -/
def pXlsx : PyPath := ⟨false, ["data.xlsx".toList]⟩

/-- The path `a/../b.json`. -/
def pDotDot : PyPath := ⟨false, ["a".toList, "..".toList, "b.json".toList]⟩

/-- The path `b.json`. -/
def pPlain : PyPath := ⟨false, ["b.json".toList]⟩

/-- A sample working directory `/home`. -/
def cwdHome : List (List Char) := ["home".toList]

/-- The empty filesystem. -/
def fsEmpty : Fs := fun _ => none

/-- A filesystem holding one file whose content is not valid JSON. -/
def fsCorrupt : Fs := fun q => if q = pData then some "xx".toList else none

/-- The outcome of a run whose mutex acquisition timed out. -/
def oTimeout : WOutcome := ⟨false, true, [], true, true⟩

/-- The outcome of a run whose `json.dump` failed after flushing one byte. -/
def oDumpFail : WOutcome := ⟨true, false, "x".toList, true, true⟩

/-- A sample document exercising every constructor, including the empty
list and the empty map. -/
def vSample : Json :=
  .obj [("rows".toList, .arr [.num 1, .num (-12), .null, .bool true, .bool false]),
        ("empty list".toList, .arr []),
        ("empty map".toList, .obj []),
        ("name".toList, .str "A \"b\"\n\t\\".toList)]

/-! # Theorems -/

/-! ## C6 — missing-file default -/

/-- C6: for every path whose file does not exist and every default,
`safe_json_read` returns the default without error and leaves the
filesystem unchanged — in particular it does not create the file. -/
theorem C6_missing_file_default (cwd : List (List Char)) (fs : Fs) (p : PyPath)
    (d : Json) (memOk : Bool) (h : fs p = none) :
    (safe_json_read cwd fs p d memOk).ret = d ∧
      (safe_json_read cwd fs p d memOk).fs = fs := by
  simp [safe_json_read, h]

/-- C6 witness: reading `data.json` from the empty filesystem. -/
theorem C6_missing_file_default_witness :
    fsEmpty pData = none ∧
      ((safe_json_read cwdHome fsEmpty pData (.arr []) true).ret = Json.arr [] ∧
        (safe_json_read cwdHome fsEmpty pData (.arr []) true).fs = fsEmpty) :=
  ⟨rfl, C6_missing_file_default cwdHome fsEmpty pData (.arr []) true rfl⟩

/-! ## C7 — corrupt-document recovery -/

/-- C7: for every existing file whose content does not parse as JSON,
`safe_json_read` returns the caller-supplied default instead of
propagating the parse error, and leaves the filesystem unchanged. -/
theorem C7_corrupt_recovery (cwd : List (List Char)) (fs : Fs) (p : PyPath)
    (d : Json) (c : List Char) (hc : fs p = some c) (hbad : loads c = none) :
    (safe_json_read cwd fs p d true).ret = d ∧
      (safe_json_read cwd fs p d true).fs = fs := by
  simp [safe_json_read, file_lock_acquire, hc, hbad]

/-- C7 witness: a file holding the two bytes `xx`. -/
theorem C7_corrupt_recovery_witness :
    fsCorrupt pData = some "xx".toList ∧ loads "xx".toList = none ∧
      ((safe_json_read cwdHome fsCorrupt pData (.obj []) true).ret = Json.obj [] ∧
        (safe_json_read cwdHome fsCorrupt pData (.obj []) true).fs = fsCorrupt) :=
  ⟨rfl, rfl,
    C7_corrupt_recovery cwdHome fsCorrupt pData (.obj []) "xx".toList rfl rfl⟩

/-! ## C8 — timeout bound on acquisition -/

/-- C8: when the in-process mutex cannot be obtained within the budget
(`memory_lock.acquire(timeout=timeout)` returns `False`, the model's
`memOk = false`), `file_lock` raises `TimeoutError` rather than blocking:
the acquisition returns the error outcome for every filesystem and path.
The model is a total function, so no acquisition path hangs. -/
theorem C8_timeout_bound (cwd : List (List Char)) (fs : Fs) (p : PyPath) :
    file_lock_acquire cwd fs p false = none := by
  simp [file_lock_acquire]

/-! ## C5 — distinct failure surfacing (refuted) -/

/-- C5 counterexample: a `safe_json_write` whose mutex acquisition timed
out and one whose `json.dump` failed return the very same value (`False`),
and likewise for `safe_json_update`: the immediate caller cannot
distinguish a lock timeout from a write failure. -/
theorem C5_counterexample :
    (safe_json_write cwdHome fsEmpty pData .null oTimeout).ret
        = (safe_json_write cwdHome fsEmpty pData .null oDumpFail).ret ∧
      (safe_json_update cwdHome fsEmpty pData id oTimeout).ret
        = (safe_json_update cwdHome fsEmpty pData id oDumpFail).ret := by
  exact ⟨rfl, rfl⟩

/-- C5 amended: both mutations report success exactly when every fallible
step succeeded, and collapse every failure — the mutex timeout included,
because the `TimeoutError` each one raises is caught by its own
`except Exception` — into the same bare `False` return value. -/
theorem C5_amended (cwd : List (List Char)) (fs : Fs) (p : PyPath) (v : Json)
    (f : Json → Json) (o : WOutcome) :
    (safe_json_write cwd fs p v o).ret = (o.memOk && o.dumpOk && o.renameOk) ∧
      (safe_json_update cwd fs p f o).ret =
        (o.memOk && updateReadOk fs p && o.transformOk && o.dumpOk && o.renameOk) := by
  obtain ⟨m, dk, dh, rn, tr⟩ := o
  constructor
  · cases m <;> cases dk <;> cases rn <;> simp [safe_json_write]
  · cases m
    · simp [safe_json_update]
    · cases hfp : fs p with
      | none =>
          cases tr <;> cases dk <;> cases rn <;>
            simp [safe_json_update, updateReadOk, hfp]
      | some c =>
          cases hl : loads c with
          | none => simp [safe_json_update, updateReadOk, hfp, hl]
          | some dta =>
              cases tr <;> cases dk <;> cases rn <;>
                simp [safe_json_update, updateReadOk, hfp, hl]

/-! ## C4 — mutations and the advisory lock (refuted) -/

/-- C4 counterexample: a concrete successful `safe_json_update` performs
no OS advisory-lock attempt at all — while `safe_json_read` on an existing
file, which does go through `file_lock`, performs one. -/
theorem C4_counterexample :
    MEvent.advisoryAttempt ∉ (safe_json_update cwdHome fsEmpty pData id allOk).events ∧
      MEvent.advisoryAttempt ∈ (safe_json_read cwdHome fsCorrupt pData .null true).events := by
  exact ⟨by decide, by decide⟩

/-- C4 amended: every `safe_json_write` and `safe_json_update` takes the
path's in-process mutex directly as its first lock action and never
attempts the OS advisory lock; only `safe_json_read` (through `file_lock`)
performs the advisory-lock attempt. -/
theorem C4_amended (cwd : List (List Char)) (fs : Fs) (p : PyPath) (v : Json)
    (f : Json → Json) (o : WOutcome) :
    MEvent.advisoryAttempt ∉ (safe_json_write cwd fs p v o).events ∧
      MEvent.advisoryAttempt ∉ (safe_json_update cwd fs p f o).events ∧
      (safe_json_write cwd fs p v o).events.head? = some (.acquireMem (lockKey cwd p)) ∧
      (safe_json_update cwd fs p f o).events.head? = some (.acquireMem (lockKey cwd p)) ∧
      ((fs p).isSome →
        MEvent.advisoryAttempt ∈ (safe_json_read cwd fs p v true).events) := by
  obtain ⟨m, dk, dh, rn, tr⟩ := o
  refine ⟨?_, ?_, ?_, ?_, ?_⟩
  · cases m <;> cases dk <;> cases rn <;> simp [safe_json_write]
  · cases m <;> cases dk <;> cases rn <;> cases tr <;>
      cases hfp : fs p <;> simp [safe_json_update, hfp] <;>
      cases hl : loads _ <;> simp [hl]
  · cases m <;> cases dk <;> cases rn <;> simp [safe_json_write]
  · cases m <;> cases dk <;> cases rn <;> cases tr <;>
      cases hfp : fs p <;> simp [safe_json_update, hfp] <;>
      cases hl : loads _ <;> simp [hl]
  · intro hs
    cases hfp : fs p with
    | none => rw [hfp] at hs; simp at hs
    | some c =>
        cases hl : loads c <;>
          simp [safe_json_read, file_lock_acquire, hfp, hl]

/-- C4 witness: the advisory-attempt conjunct of the amended claim at a
concrete existing file. -/
theorem C4_amended_witness :
    (fsCorrupt pData).isSome ∧
      MEvent.advisoryAttempt ∈ (safe_json_read cwdHome fsCorrupt pData .null true).events :=
  ⟨by decide,
    (C4_amended cwdHome fsCorrupt pData .null id allOk).2.2.2.2 (by decide)⟩

/-! ## Path lemmas for C10 -/

/-- `extLenRev` finds the first dot: on `u ++ '.' :: w` with no dot in `u`
it reports `u.length`. -/
theorem extLenRev_append (u w : List Char) (h : Char.ofNat 46 ∉ u) :
    extLenRev (u ++ Char.ofNat 46 :: w) = some u.length := by
  induction u with
  | nil => simp [extLenRev]
  | cons c cs ih =>
      have hc : c ≠ Char.ofNat 46 := fun hq => h (hq ▸ List.mem_cons_self c cs)
      have hcs : Char.ofNat 46 ∉ cs := fun hq => h (List.mem_cons_of_mem c hq)
      simp [extLenRev, hc, ih hcs]

/-- pathlib's suffix of a name of the shape `stem.ext`: the final `.ext`,
provided the stem is nonempty and the extension nonempty and dot-free. -/
theorem nameSuffix_shape (stem t : List Char) (hstem : stem ≠ []) (ht : t ≠ [])
    (hd : Char.ofNat 46 ∉ t) :
    nameSuffix (stem ++ Char.ofNat 46 :: t) = Char.ofNat 46 :: t := by
  have hrev : (stem ++ Char.ofNat 46 :: t).reverse
      = t.reverse ++ Char.ofNat 46 :: stem.reverse := by
    simp
  have hdr : Char.ofNat 46 ∉ t.reverse := by simpa using hd
  have hlen : (stem ++ Char.ofNat 46 :: t).length = stem.length + 1 + t.length := by
    simp; omega
  have h1 : 1 ≤ stem.length := List.length_pos.mpr hstem
  have h2 : 1 ≤ t.length := List.length_pos.mpr ht
  rw [nameSuffix, hrev, extLenRev_append _ _ hdr]
  simp only [List.length_reverse]
  rw [if_pos (by omega)]
  have hdrop : (stem ++ Char.ofNat 46 :: t).length - 1 - t.length = stem.length := by
    rw [hlen]; omega
  rw [hdrop, List.drop_left]

/-- `with_suffix` on a name of the shape `stem.ext` replaces the final
extension. -/
theorem nameWithSuffix_shape (stem t suf : List Char) (hstem : stem ≠ [])
    (ht : t ≠ []) (hd : Char.ofNat 46 ∉ t) :
    nameWithSuffix (stem ++ Char.ofNat 46 :: t) suf = stem ++ suf := by
  rw [nameWithSuffix, nameSuffix_shape stem t hstem ht hd]
  have hlen : (stem ++ Char.ofNat 46 :: t).length = stem.length + 1 + t.length := by
    simp; omega
  rw [if_neg (by simp)]
  have htake : (stem ++ Char.ofNat 46 :: t).length - (Char.ofNat 46 :: t).length
      = stem.length := by
    simp only [List.length_cons] at *
    omega
  rw [htake, List.take_left]

/-- Joining components distributes over appending a final component. -/
theorem joinComps_concat : ∀ (D : List (List Char)) (n : List Char),
    joinComps (D ++ [n]) = joinComps D ++ (if D = [] then n else Char.ofNat 47 :: n)
  | [], n => by simp [joinComps]
  | [d], n => by simp [joinComps]
  | d :: d2 :: ds, n => by
      have ih := joinComps_concat (d2 :: ds) n
      rw [if_neg (by simp : ¬(d2 :: ds = []))] at ih
      have l1 : joinComps ((d :: d2 :: ds) ++ [n])
          = d ++ Char.ofNat 47 :: joinComps ((d2 :: ds) ++ [n]) := rfl
      have l2 : joinComps (d :: d2 :: ds)
          = d ++ Char.ofNat 47 :: joinComps (d2 :: ds) := rfl
      rw [l1, ih, l2, if_neg (by simp : ¬(d :: d2 :: ds = []))]
      simp

/-- Two paths in the same directory with distinct final components render
to distinct strings, hence distinct registry keys. -/
theorem joinComps_concat_ne (D : List (List Char)) (n1 n2 : List Char) (h : n1 ≠ n2) :
    joinComps (D ++ [n1]) ≠ joinComps (D ++ [n2]) := by
  rw [joinComps_concat, joinComps_concat]
  intro hq
  have := List.append_cancel_left hq
  by_cases hD : D = []
  · rw [if_pos hD, if_pos hD] at this
    exact h this
  · rw [if_neg hD, if_neg hD] at this
    simp only [List.cons.injEq, true_and] at this
    exact h this

/-! ## C10 — the implicit temp-file collision -/

/-- C10: for any two distinct target paths in the same directory that
differ only in their final extension, `with_suffix('.tmp')` computes the
same temp-file path, while the mutex registry keys the two targets
differently — concurrent writes to the two documents share one temp file
but are serialized by different mutexes. -/
theorem C10_temp_collision (cwd dir : List (List Char)) (ab : Bool)
    (stem t1 t2 : List Char) (hstem : stem ≠ []) (ht1 : t1 ≠ []) (ht2 : t2 ≠ [])
    (hd1 : Char.ofNat 46 ∉ t1) (hd2 : Char.ofNat 46 ∉ t2) (hne : t1 ≠ t2) :
    withSuffixTmp ⟨ab, dir ++ [stem ++ Char.ofNat 46 :: t1]⟩
        = withSuffixTmp ⟨ab, dir ++ [stem ++ Char.ofNat 46 :: t2]⟩ ∧
      (⟨ab, dir ++ [stem ++ Char.ofNat 46 :: t1]⟩ : PyPath)
        ≠ ⟨ab, dir ++ [stem ++ Char.ofNat 46 :: t2]⟩ ∧
      lockKey cwd ⟨ab, dir ++ [stem ++ Char.ofNat 46 :: t1]⟩
        ≠ lockKey cwd ⟨ab, dir ++ [stem ++ Char.ofNat 46 :: t2]⟩ := by
  have hx : stem ++ Char.ofNat 46 :: t1 ≠ stem ++ Char.ofNat 46 :: t2 := by
    intro hq
    have h2 := List.append_cancel_left hq
    simp only [List.cons.injEq, true_and] at h2
    exact hne h2
  refine ⟨?_, ?_, ?_⟩
  · simp only [withSuffixTmp, List.getLast?_concat, List.dropLast_concat]
    rw [nameWithSuffix_shape stem t1 _ hstem ht1 hd1,
      nameWithSuffix_shape stem t2 _ hstem ht2 hd2]
  · intro hq
    have hc : dir ++ [stem ++ Char.ofNat 46 :: t1] = dir ++ [stem ++ Char.ofNat 46 :: t2] :=
      congrArg PyPath.comps hq
    have h2 := List.append_cancel_left hc
    simp only [List.cons.injEq, and_true] at h2
    exact hx h2
  · cases ab
    · simp only [lockKey, pathAbsolute, pathStr]
      intro hq
      simp only [Bool.false_eq_true, if_false, if_true, List.cons.injEq, true_and] at hq
      rw [← List.append_assoc, ← List.append_assoc] at hq
      exact joinComps_concat_ne (cwd ++ dir) _ _ hx hq
    · simp only [lockKey, pathAbsolute, pathStr]
      intro hq
      simp only [if_true, List.cons.injEq, true_and] at hq
      exact joinComps_concat_ne dir _ _ hx hq

/-- C10 witness: `data.json` and `data.xlsx` share the temp path
`data.tmp` while getting different registry keys. -/
theorem C10_temp_collision_witness :
    ("json".toList ≠ "xlsx".toList) ∧
      (withSuffixTmp ⟨false, [] ++ ["data".toList ++ Char.ofNat 46 :: "json".toList]⟩
          = withSuffixTmp ⟨false, [] ++ ["data".toList ++ Char.ofNat 46 :: "xlsx".toList]⟩ ∧
        (⟨false, [] ++ ["data".toList ++ Char.ofNat 46 :: "json".toList]⟩ : PyPath)
          ≠ ⟨false, [] ++ ["data".toList ++ Char.ofNat 46 :: "xlsx".toList]⟩ ∧
        lockKey cwdHome ⟨false, [] ++ ["data".toList ++ Char.ofNat 46 :: "json".toList]⟩
          ≠ lockKey cwdHome ⟨false, [] ++ ["data".toList ++ Char.ofNat 46 :: "xlsx".toList]⟩) :=
  ⟨by decide,
    C10_temp_collision cwdHome [] false "data".toList "json".toList "xlsx".toList
      (by decide) (by decide) (by decide) (by decide) (by decide) (by decide)⟩

/-! ## C2 — atomicity on failure (refuted for `safe_json_update`) -/

/-- C2 counterexample: a `safe_json_update` whose `json.dump` fails
mid-write returns `False` but leaves its half-written temp file
(`data.tmp`, holding the flushed byte) on disk: the `except` block of
`safe_json_update` performs no temp-file cleanup. -/
theorem C2_counterexample :
    (safe_json_update cwdHome fsEmpty pData id oDumpFail).ret = false ∧
      (safe_json_update cwdHome fsEmpty pData id oDumpFail).fs (withSuffixTmp pData)
        = some "x".toList := by
  refine ⟨rfl, ?_⟩
  simp [safe_json_update, fsSet, fsEmpty, oDumpFail, loads]

/-- C2 amended: provided the target's own suffix is not already `.tmp`
(so the temp path differs from the target), a failed `safe_json_write`
does delete its temp file and leaves the target unchanged, while a failed
`safe_json_update` leaves the target unchanged but performs no temp-file
cleanup. -/
theorem C2_amended (cwd : List (List Char)) (fs : Fs) (p : PyPath) (v : Json)
    (f : Json → Json) (o : WOutcome) (hne : withSuffixTmp p ≠ p) :
    ((safe_json_write cwd fs p v o).ret = false →
        (safe_json_write cwd fs p v o).fs (withSuffixTmp p) = none ∧
          (safe_json_write cwd fs p v o).fs p = fs p) ∧
      ((safe_json_update cwd fs p f o).ret = false →
        (safe_json_update cwd fs p f o).fs p = fs p) := by
  have hne2 : p ≠ withSuffixTmp p := fun hq => hne hq.symm
  obtain ⟨m, dk, dh, rn, tr⟩ := o
  constructor
  · intro hret
    cases m <;> cases dk <;> cases rn <;>
      simp_all [safe_json_write, fsRemove, fsSet, hne, hne2]
  · intro hret
    cases m
    · simp [safe_json_update]
    · cases hfp : fs p with
      | none =>
          cases tr <;> cases dk <;> cases rn <;>
            simp_all [safe_json_update, fsSet, fsRemove, hne, hne2]
      | some c =>
          cases hl : loads c with
          | none => simp [safe_json_update, hfp, hl]
          | some dta =>
              cases tr <;> cases dk <;> cases rn <;>
                simp_all [safe_json_update, fsSet, fsRemove, hne, hne2]

/-- C2 witness: the amended claim at `data.json` with a mid-write dump
failure. -/
theorem C2_amended_witness :
    withSuffixTmp pData ≠ pData ∧
      (((safe_json_write cwdHome fsEmpty pData .null oDumpFail).ret = false →
          (safe_json_write cwdHome fsEmpty pData .null oDumpFail).fs (withSuffixTmp pData)
              = none ∧
            (safe_json_write cwdHome fsEmpty pData .null oDumpFail).fs pData
              = fsEmpty pData) ∧
        ((safe_json_update cwdHome fsEmpty pData id oDumpFail).ret = false →
          (safe_json_update cwdHome fsEmpty pData id oDumpFail).fs pData
            = fsEmpty pData)) :=
  ⟨by decide, C2_amended cwdHome fsEmpty pData .null id oDumpFail (by decide)⟩

/-! ## C9 — one mutex per canonical path (refuted) -/

/-- C9 counterexample: `a/../b.json` and `b.json` (in working directory
`/home`) denote the same file — their normalized absolute forms agree —
but `_get_memory_lock` keys them by the unnormalized `str(absolute())`,
which differs, so the two spellings obtain two distinct mutexes. -/
theorem C9_counterexample :
    canonicalOf cwdHome pDotDot = canonicalOf cwdHome pPlain ∧
      lockKey cwdHome pDotDot ≠ lockKey cwdHome pPlain := by
  exact ⟨by decide, by decide⟩

/-- C9 amended: the registry key is `str(path.absolute())`, which is
absolutization without normalization: a relative spelling and the plain
absolute spelling of the same file share one key, and any two spellings
with equal keys obtain the same mutex, the registry never growing a second
entry for an existing key — but `..` segments are not resolved. -/
theorem C9_amended (reg : List (List Char)) (cwd : List (List Char))
    (l : List (List Char)) (p q : PyPath) (h : lockKey cwd p = lockKey cwd q) :
    lockKey cwd ⟨false, l⟩ = lockKey cwd ⟨true, cwd ++ l⟩ ∧
      (getMemoryLock ((getMemoryLock reg cwd p).2) cwd q).1
        = (getMemoryLock reg cwd p).1 ∧
      (getMemoryLock ((getMemoryLock reg cwd p).2) cwd q).2
        = (getMemoryLock reg cwd p).2 := by
  refine ⟨by simp [lockKey, pathAbsolute], ?_, ?_⟩
  · simp [getMemoryLock, h]
  · simp only [getMemoryLock, ← h]
    by_cases hc : lockKey cwd p ∈ reg <;>
      simp [hc]

/-! ## Round trip, part 1: integers -/

/-- The digit character of `d < 10` is a digit. -/
theorem digitChar_isDig (d : Nat) (h : d < 10) : isDig (digitChar d) = true := by
  interval_cases d <;> decide

/-- The code point of the digit character of `d < 10`. -/
theorem digitChar_toNat (d : Nat) (h : d < 10) : (digitChar d).toNat = 48 + d := by
  interval_cases d <;> decide

/-- One unfolding of `natDigitsRev` above ten. -/
theorem natDigitsRev_step (n : Nat) (h : ¬ n < 10) :
    natDigitsRev n = digitChar (n % 10) :: natDigitsRev (n / 10) := by
  rw [natDigitsRev]
  simp [h]

/-- `natDec` below ten is the single digit. -/
theorem natDec_small (n : Nat) (h : n < 10) : natDec n = [digitChar n] := by
  rw [natDec, natDigitsRev]
  simp [h]

/-- `natDec` above ten ends with the last digit. -/
theorem natDec_step (n : Nat) (h : ¬ n < 10) :
    natDec n = natDec (n / 10) ++ [digitChar (n % 10)] := by
  rw [natDec, natDec, natDigitsRev_step n h, List.reverse_cons]

/-- A number's decimal form is never empty. -/
theorem natDec_ne_nil (n : Nat) : natDec n ≠ [] := by
  by_cases h : n < 10
  · rw [natDec_small n h]; simp
  · rw [natDec_step n h]; simp

/-- Every character of a decimal form is a digit. -/
theorem natDec_digits (n : Nat) : ∀ c ∈ natDec n, isDig c = true := by
  induction n using Nat.strong_induction_on with
  | _ n ih =>
      by_cases h : n < 10
      · rw [natDec_small n h]
        intro c hc
        simp at hc
        subst hc
        exact digitChar_isDig n h
      · rw [natDec_step n h]
        intro c hc
        rcases List.mem_append.mp hc with h1 | h1
        · exact ih (n / 10) (by omega) c h1
        · simp at h1
          subst h1
          exact digitChar_isDig _ (Nat.mod_lt _ (by omega))

/-- `digitsVal` peels the last digit. -/
theorem digitsVal_concat (ds : List Char) (c : Char) :
    digitsVal (ds ++ [c]) = digitsVal ds * 10 + (c.toNat - 48) := by
  simp [digitsVal, List.foldl_append]

/-- Evaluating the decimal form gives the number back. -/
theorem digitsVal_natDec (n : Nat) : digitsVal (natDec n) = n := by
  induction n using Nat.strong_induction_on with
  | _ n ih =>
      by_cases h : n < 10
      · rw [natDec_small n h]
        have := digitChar_toNat n h
        simp [digitsVal]
        omega
      · rw [natDec_step n h, digitsVal_concat, ih (n / 10) (by omega),
          digitChar_toNat _ (Nat.mod_lt _ (by omega))]
        omega

/-- A positive number's decimal form starts with a nonzero digit. -/
theorem natDec_head_pos (n : Nat) (h : 1 ≤ n) :
    ∃ c t, natDec n = c :: t ∧ isDig c = true ∧ c ≠ digitChar 0 := by
  induction n using Nat.strong_induction_on with
  | _ n ih =>
      by_cases hs : n < 10
      · refine ⟨digitChar n, [], natDec_small n hs, digitChar_isDig n hs, fun hq => ?_⟩
        have h1 : (digitChar n).toNat = 48 + n := digitChar_toNat n hs
        rw [hq] at h1
        have h2 : (digitChar 0).toNat = 48 := digitChar_toNat 0 (by omega)
        omega
      · obtain ⟨c, t, hct, hdig, hnz⟩ := ih (n / 10) (by omega) (by omega)
        exact ⟨c, t ++ [digitChar (n % 10)], by rw [natDec_step n hs, hct]; simp,
          hdig, hnz⟩

/-- `takeDigits` does not move past a number delimiter. -/
theorem takeDigits_delim (s : List Char) (h : numDelim s = true) :
    takeDigits s = ([], s) := by
  cases s with
  | nil => rfl
  | cons c t =>
      simp only [numDelim, Bool.not_eq_true', Bool.or_eq_false_iff] at h
      simp [takeDigits, h.1.1.1]

/-- `takeDigits` consumes exactly a digit run ended by a delimiter. -/
theorem takeDigits_run (ds rest : List Char) (hds : ∀ c ∈ ds, isDig c = true)
    (hr : numDelim rest = true) : takeDigits (ds ++ rest) = (ds, rest) := by
  induction ds with
  | nil => simpa using takeDigits_delim rest hr
  | cons c cs ih =>
      have hc : isDig c = true := hds c (by simp)
      have ih2 := ih (fun x hx => hds x (by simp [hx]))
      simp [takeDigits, hc, ih2]

/-- A delimited remainder starts no fraction. -/
theorem fracHere_delim (s : List Char) (h : numDelim s = true) :
    fracHere s = false := by
  cases s with
  | nil => rfl
  | cons c t =>
      simp only [numDelim, Bool.not_eq_true', Bool.or_eq_false_iff] at h
      cases t with
      | nil => rfl
      | cons d u => simp [fracHere, h.1.1.2]

/-- A delimited remainder starts no exponent. -/
theorem expHere_delim (s : List Char) (h : numDelim s = true) :
    expHere s = false := by
  cases s with
  | nil => rfl
  | cons c t =>
      simp only [numDelim, Bool.not_eq_true', Bool.or_eq_false_iff] at h
      simp [expHere, h.1.2, h.2]

/-- The integer group consumes exactly a decimal form. -/
theorem intPart_natDec (n : Nat) (rest : List Char) (hr : numDelim rest = true) :
    intPart (natDec n ++ rest) = some (n, rest) := by
  by_cases h0 : n = 0
  · subst h0
    rw [natDec_small 0 (by omega)]
    simp [intPart]
  · obtain ⟨c, t, hct, hdig, hnz⟩ := natDec_head_pos n (by omega)
    have hts : ∀ x ∈ t, isDig x = true := fun x hx =>
      natDec_digits n x (by rw [hct]; simp [hx])
    rw [hct]
    simp only [List.cons_append, intPart, hnz, if_false, hdig, if_true]
    rw [takeDigits_run t rest hts hr]
    have : digitsVal (c :: t) = n := by
      have h2 := digitsVal_natDec n
      rwa [hct] at h2
    simp [this, hnz]

/-- A digit run's leading character is nothing a minus sign is. -/
theorem isDig_ne_minus (c : Char) (h : isDig c = true) : c ≠ Char.ofNat 45 := by
  intro hq
  rw [hq] at h
  exact absurd h (by decide)

/-- `matchNumber` inverts `repr` on integers, before a delimiter. -/
theorem matchNumber_intDec (i : Int) (rest : List Char) (hr : numDelim rest = true) :
    matchNumber (intDec i ++ rest) = some (.num i, rest) := by
  by_cases hi : i < 0
  · have habs : 1 ≤ i.natAbs := by omega
    obtain ⟨c, t, hct, hdig, hnz⟩ := natDec_head_pos i.natAbs habs
    have hsign : signSplit (intDec i ++ rest) = (true, natDec i.natAbs ++ rest) := by
      simp [intDec, hi, signSplit]
    have hvalue : -((i.natAbs : Nat) : Int) = i := by omega
    simp only [matchNumber, hsign, intPart_natDec i.natAbs rest hr,
      fracHere_delim rest hr, expHere_delim rest hr]
    simp [abs_of_neg hi]
  · have hsign : signSplit (intDec i ++ rest) = (false, natDec i.natAbs ++ rest) := by
      by_cases h0 : i.natAbs = 0
      · rw [intDec, if_neg hi, h0, natDec_small 0 (by omega)]
        simp [signSplit, (by decide : digitChar 0 ≠ Char.ofNat 45)]
      · obtain ⟨c, t, hct, hdig, hnz⟩ := natDec_head_pos i.natAbs (by omega)
        rw [intDec, if_neg hi, hct]
        simp [signSplit, isDig_ne_minus c hdig]
    have hvalue : ((i.natAbs : Nat) : Int) = i := by omega
    simp only [matchNumber, hsign, intPart_natDec i.natAbs rest hr,
      fracHere_delim rest hr, expHere_delim rest hr]
    simp [hvalue]

/-! ## Round trip, part 2: strings -/

/-- `hexVal` inverts `hexChar` on one hex digit. -/
theorem hexVal_hexChar (d : Nat) (h : d < 16) : hexVal (hexChar d) = some d := by
  interval_cases d <;> decide

/-- `hex4` recovers a control character's code from its `\u00xy` digits. -/
theorem hex4_control (t : Nat) (h : t < 32) :
    hex4 (Char.ofNat 48) (Char.ofNat 48) (hexChar (t / 16)) (hexChar (t % 16))
      = some t := by
  have h1 : hexVal (Char.ofNat 48) = some 0 := by decide
  have h2 := hexVal_hexChar (t / 16) (by omega)
  have h3 := hexVal_hexChar (t % 16) (by omega)
  simp [hex4, h1, h2, h3]
  omega

/-- Scanning one escaped character undoes the escape. -/
theorem scanString_escape (fuel : Nat) (c : Char) (acc rest : List Char) :
    scanString (fuel + 1) acc (escapeChar c ++ rest)
      = scanString fuel (c :: acc) rest := by
  by_cases h34 : c = Char.ofNat 34
  · subst h34; simp [escapeChar, scanString, bslashDecode]
  by_cases h92 : c = Char.ofNat 92
  · subst h92; simp [escapeChar, scanString, bslashDecode, h34]
  by_cases h8 : c = Char.ofNat 8
  · subst h8; simp [escapeChar, scanString, bslashDecode]
  by_cases h12 : c = Char.ofNat 12
  · subst h12; simp [escapeChar, scanString, bslashDecode]
  by_cases h10 : c = Char.ofNat 10
  · subst h10; simp [escapeChar, scanString, bslashDecode]
  by_cases h13 : c = Char.ofNat 13
  · subst h13; simp [escapeChar, scanString, bslashDecode]
  by_cases h9 : c = Char.ofNat 9
  · subst h9; simp [escapeChar, scanString, bslashDecode]
  by_cases hctl : c.toNat < 32
  · have hesc : escapeChar c
        = [Char.ofNat 92, Char.ofNat 117, Char.ofNat 48, Char.ofNat 48,
           hexChar (c.toNat / 16), hexChar (c.toNat % 16)] := by
      simp [escapeChar, h34, h92, h8, h12, h10, h13, h9, hctl]
    rw [hesc]
    simp [scanString, hex4_control c.toNat hctl, Char.ofNat_toNat]
    intro h1 _
    exact absurd h1 (by omega)
  · have hesc : escapeChar c = [c] := by
      simp [escapeChar, h34, h92, h8, h12, h10, h13, h9, hctl]
    rw [hesc]
    simp [scanString, h34, h92, hctl]

/-- Scanning an escaped body stops exactly at the closing quote. -/
theorem scanString_flat : ∀ (s : List Char) (fuel : Nat) (acc rest : List Char),
    s.length < fuel →
    scanString fuel acc (s.flatMap escapeChar ++ Char.ofNat 34 :: rest)
      = some (acc.reverse ++ s, rest)
  | [], fuel, acc, rest, h => by
      cases fuel with
      | zero => omega
      | succ f => simp [scanString]
  | c :: cs, fuel, acc, rest, h => by
      cases fuel with
      | zero => omega
      | succ f =>
          rw [List.flatMap_cons, List.append_assoc, scanString_escape,
            scanString_flat cs f (c :: acc) rest (by simp at h; omega)]
          simp

/-! ## Round trip, part 3: whitespace, dispatch and object plumbing -/

/-- `skipWs` stops at a non-whitespace head. -/
theorem skipWs_cons_not (c : Char) (s : List Char) (h : isWsChar c = false) :
    skipWs (c :: s) = c :: s := by
  simp [skipWs, h]

/-- `skipWs` passes over an all-whitespace run. -/
theorem skipWs_ws_append (w s : List Char) (h : ∀ c ∈ w, isWsChar c = true) :
    skipWs (w ++ s) = skipWs s := by
  induction w with
  | nil => rfl
  | cons c t ih =>
      have hc := h c (by simp)
      simp [skipWs, hc, ih (fun x hx => h x (by simp [hx]))]

/-- Every character the encoder's newline-indent emits is whitespace. -/
theorem nlIndent_ws (k : Nat) : ∀ c ∈ nlIndent k, isWsChar c = true := by
  intro c hc
  simp only [nlIndent, List.mem_cons, List.mem_replicate] at hc
  rcases hc with h | h
  · subst h; decide
  · rw [h.2]; decide

/-- `skipWs` passes over a newline-indent. -/
theorem skipWs_nlIndent (k : Nat) (s : List Char) :
    skipWs (nlIndent k ++ s) = skipWs s :=
  skipWs_ws_append _ _ (nlIndent_ws k)

/-- A whitespace character delimits a number. -/
theorem ws_numDelim (c : Char) (t : List Char) (h : isWsChar c = true) :
    numDelim (c :: t) = true := by
  have h1 : isDig c = false := by
    simp only [isWsChar, Bool.or_eq_true, decide_eq_true_eq] at h
    simp only [isDig, Bool.and_eq_false_iff, decide_eq_false_iff_not]
    omega
  have h2 : c ≠ Char.ofNat 46 := by intro hq; subst hq; revert h; decide
  have h3 : c ≠ Char.ofNat 101 := by intro hq; subst hq; revert h; decide
  have h4 : c ≠ Char.ofNat 69 := by intro hq; subst hq; revert h; decide
  simp [numDelim, h1, h2, h3, h4]

/-- Whitespace followed by a delimiting head delimits a number. -/
theorem numDelim_wclose (w : List Char) (cl : Char) (rest : List Char)
    (hw : ∀ c ∈ w, isWsChar c = true) (hcl : numDelim (cl :: rest) = true) :
    numDelim (w ++ cl :: rest) = true := by
  cases w with
  | nil => simpa using hcl
  | cons c t => exact ws_numDelim c _ (hw c (by simp))

/-- A digit head is not whitespace and closes no array. -/
theorem isDig_head_facts (c : Char) (h : isDig c = true) :
    isWsChar c = false ∧ c ≠ Char.ofNat 93 := by
  refine ⟨?_, fun hq => by subst hq; revert h; decide⟩
  simp only [isDig, Bool.and_eq_true, decide_eq_true_eq] at h
  simp only [isWsChar, Bool.or_eq_false_iff, decide_eq_false_iff_not]
  omega

/-- Every serialized value starts with a character that is neither
whitespace nor a closing bracket. -/
theorem serHead (lvl : Nat) (v : Json) :
    ∃ c t, ser lvl v = c :: t ∧ isWsChar c = false ∧ c ≠ Char.ofNat 93 := by
  cases v with
  | null => exact ⟨_, _, rfl, by decide, by decide⟩
  | bool b => cases b <;> exact ⟨_, _, rfl, by decide, by decide⟩
  | str s => exact ⟨_, _, rfl, by decide, by decide⟩
  | arr es => cases es <;> exact ⟨_, _, rfl, by decide, by decide⟩
  | obj ms => cases ms <;> exact ⟨_, _, rfl, by decide, by decide⟩
  | num i =>
      by_cases hi : i < 0
      · exact ⟨Char.ofNat 45, natDec i.natAbs, by simp [ser, intDec, hi],
          by decide, by decide⟩
      · by_cases h0 : i.natAbs = 0
        · refine ⟨digitChar 0, [], ?_, by decide, by decide⟩
          rw [ser, intDec, if_neg hi, h0, natDec_small 0 (by omega)]
          rfl
        · obtain ⟨c, t, hct, hdig, _⟩ := natDec_head_pos i.natAbs (by omega)
          obtain ⟨hws, h93⟩ := isDig_head_facts c hdig
          exact ⟨c, t, by simp [ser, intDec, hi, hct], hws, h93⟩

/-- Dict assignment of a fresh key appends the pair. -/
theorem insertPair_fresh : ∀ (ps : List (List Char × Json)) (k : List Char) (v : Json),
    noKey k ps = true → insertPair ps k v = ps ++ [(k, v)]
  | [], _, _, _ => rfl
  | (k1, v1) :: t, k, v, h => by
      rw [noKey, List.all_cons, Bool.and_eq_true] at h
      obtain ⟨h1, h2⟩ := h
      rw [decide_eq_true_eq] at h1
      have h1b : k1 ≠ k := h1
      have hrec := insertPair_fresh t k v h2
      simp [insertPair, h1b, hrec]

/-- `noKey` distributes over append. -/
theorem noKey_append (k : List Char) (a b : List (List Char × Json)) :
    noKey k (a ++ b) = (noKey k a && noKey k b) := by
  simp [noKey, List.all_append]

/-- `wf` on an array is `wfList`. -/
theorem wf_arr_eq (xs : List Json) : wf (.arr xs) = wfList xs := rfl

/-- `wf` on an object is `wfPairs`. -/
theorem wf_obj_eq (kvs : List (List Char × Json)) : wf (.obj kvs) = wfPairs kvs := rfl

/-- `wfList` on a cons. -/
theorem wfList_cons_eq (x : Json) (xs : List Json) :
    wfList (x :: xs) = (wf x && wfList xs) := rfl

/-- `wfPairs` on a cons. -/
theorem wfPairs_cons_eq (kv : List Char × Json) (kvs : List (List Char × Json)) :
    wfPairs (kv :: kvs) = (noKey kv.1 kvs && wf kv.2 && wfPairs kvs) := rfl

/-- One-step unfolding of `parseArrLoop` at successor fuel. -/
theorem parseArrLoop_step (f : Nat) (s : List Char) :
    parseArrLoop (f + 1) s
      = (match parseVal f s with
         | none => none
         | some (v, r) =>
             match skipWs r with
             | [] => none
             | c :: r2 =>
                 if c = Char.ofNat 93 then some ([v], r2)
                 else if c = Char.ofNat 44 then
                   match parseArrLoop f (skipWs r2) with
                   | some (vs, r3) => some (v :: vs, r3)
                   | none => none
                 else none) := rfl

/-- One-step unfolding of `parseObjLoop` at successor fuel. -/
theorem parseObjLoop_step (f : Nat) (acc : List (List Char × Json)) (s : List Char) :
    parseObjLoop (f + 1) acc s
      = (match s with
         | [] => none
         | c :: r =>
             if c = Char.ofNat 34 then
               match scanString (r.length + 1) [] r with
               | none => none
               | some (k, r1) =>
                   match skipWs r1 with
                   | [] => none
                   | c2 :: r2 =>
                       if c2 = Char.ofNat 58 then
                         match parseVal f (skipWs r2) with
                         | none => none
                         | some (v, r3) =>
                             match skipWs r3 with
                             | [] => none
                             | c3 :: r4 =>
                                 if c3 = rbr then some (insertPair acc k v, r4)
                                 else if c3 = Char.ofNat 44 then
                                   parseObjLoop f (insertPair acc k v) (skipWs r4)
                                 else none
                       else none
             else none) := rfl

/-- The string branch of `scan_once`. -/
theorem parseVal_quote (f : Nat) (r : List Char) :
    parseVal (f + 1) (Char.ofNat 34 :: r)
      = (match scanString (r.length + 1) [] r with
         | some (t, r2) => some (.str t, r2)
         | none => none) := by
  simp [parseVal]

/-- The array branch of `scan_once`, on a nonempty body. -/
theorem parseVal_arr_red (f : Nat) (r : List Char) (c : Char) (t : List Char)
    (hskip : skipWs r = c :: t) (hc : c ≠ Char.ofNat 93) :
    parseVal (f + 1) (Char.ofNat 91 :: r)
      = (match parseArrLoop f (c :: t) with
         | some (vs, r3) => some (.arr vs, r3)
         | none => none) := by
  simp [parseVal, hskip, hc, lbr, rbr]

/-- The object branch of `scan_once`, on a body led by a key. -/
theorem parseVal_obj_red (f : Nat) (r : List Char) (t : List Char)
    (hskip : skipWs r = Char.ofNat 34 :: t) :
    parseVal (f + 1) (lbr :: r)
      = (match parseObjLoop f [] (Char.ofNat 34 :: t) with
         | some (kvs, r3) => some (.obj kvs, r3)
         | none => none) := by
  simp [parseVal, hskip, lbr, rbr]

/-- `scan_once` falls through to the number matcher. -/
theorem parseVal_dispatch_num (f : Nat) (c : Char) (s : List Char)
    (h1 : c ≠ Char.ofNat 34) (h2 : c ≠ lbr) (h3 : c ≠ Char.ofNat 91)
    (h4 : litNull.isPrefixOf (c :: s) = false)
    (h5 : litTrue.isPrefixOf (c :: s) = false)
    (h6 : litFalse.isPrefixOf (c :: s) = false) :
    parseVal (f + 1) (c :: s) = matchNumber (c :: s) := by
  simp [parseVal, h1, h2, h3, h4, h5, h6]

/-- The head of a serialized number blocks every non-number branch of
`scan_once`. -/
theorem numHead_blocks (c : Char) (hc : isDig c = true ∨ c = Char.ofNat 45) (s : List Char) :
    c ≠ Char.ofNat 34 ∧ c ≠ lbr ∧ c ≠ Char.ofNat 91 ∧
      litNull.isPrefixOf (c :: s) = false ∧
      litTrue.isPrefixOf (c :: s) = false ∧
      litFalse.isPrefixOf (c :: s) = false := by
  have htn : c.toNat = 45 ∨ (48 ≤ c.toNat ∧ c.toNat ≤ 57) := by
    rcases hc with h | h
    · right
      simpa [isDig] using h
    · left
      subst h; rfl
  have hne : ∀ m : Nat, (Char.ofNat m).toNat = m → c.toNat ≠ m → c ≠ Char.ofNat m := by
    intro m hm hq heq
    rw [heq, hm] at hq
    exact hq rfl
  refine ⟨hne 34 rfl (by omega), hne 123 rfl (by omega), hne 91 rfl (by omega), ?_, ?_, ?_⟩
  · have h110 : (Char.ofNat 110 == c) = false := by
      simp only [beq_eq_false_iff_ne, ne_eq]
      intro hq
      rw [← hq] at htn
      revert htn; decide
    simp [litNull, List.isPrefixOf, h110]
  · have h116 : (Char.ofNat 116 == c) = false := by
      simp only [beq_eq_false_iff_ne, ne_eq]
      intro hq
      rw [← hq] at htn
      revert htn; decide
    simp [litTrue, List.isPrefixOf, h116]
  · have h102 : (Char.ofNat 102 == c) = false := by
      simp only [beq_eq_false_iff_ne, ne_eq]
      intro hq
      rw [← hq] at htn
      revert htn; decide
    simp [litFalse, List.isPrefixOf, h102]

/-! ## Round trip, part 4: the main induction -/

/-- Escaping never erases a character. -/
theorem escapeChar_len_pos (c : Char) : 1 ≤ (escapeChar c).length := by
  rw [escapeChar]
  split_ifs <;> simp

/-- An escaped body is at least as long as its source. -/
theorem flatMap_escape_len (s : List Char) :
    s.length ≤ (s.flatMap escapeChar).length := by
  induction s with
  | nil => simp
  | cons c cs ih =>
      have := escapeChar_len_pos c
      simp only [List.flatMap_cons, List.length_append, List.length_cons]
      omega

/-- Members protected by `noKey` have keys different from it. -/
theorem noKey_mem (k : List Char) (ms : List (List Char × Json))
    (h : noKey k ms = true) : ∀ kv ∈ ms, kv.1 ≠ k := by
  intro kv hm
  have h2 := List.all_eq_true.mp h kv hm
  simpa using h2

/-- `skipWs` is the identity on serialized values (no value starts with
whitespace). -/
theorem skipWs_ser (lvl : Nat) (v : Json) (s : List Char) :
    skipWs (ser lvl v ++ s) = ser lvl v ++ s := by
  obtain ⟨c, t, hct, hcw, _⟩ := serHead lvl v
  rw [hct, List.cons_append, skipWs_cons_not _ _ hcw]

/-- `skipWs` is the identity on serialized strings (they start with a
quote). -/
theorem skipWs_strDec (k : List Char) (s : List Char) :
    skipWs (strDec k ++ s) = strDec k ++ s := by
  simp only [strDec, List.cons_append]
  exact skipWs_cons_not _ _ (by decide)

mutual
/-- Parsing a serialized well-formed value before a number delimiter
recovers the value and the remainder. -/
theorem rt_val : ∀ (v : Json) (lvl fuel : Nat) (rest : List Char),
    (ser lvl v).length < fuel → numDelim rest = true → wf v = true →
    parseVal fuel (ser lvl v ++ rest) = some (v, rest)
  | .null, lvl, fuel, rest, hf, _, _ => by
      cases fuel with
      | zero => exact absurd hf (Nat.not_lt_zero _)
      | succ f =>
          simp [ser, parseVal, lbr, rbr, litNull, litTrue, litFalse, List.isPrefixOf]
  | .bool true, lvl, fuel, rest, hf, _, _ => by
      cases fuel with
      | zero => exact absurd hf (Nat.not_lt_zero _)
      | succ f =>
          simp [ser, parseVal, lbr, rbr, litNull, litTrue, litFalse, List.isPrefixOf]
  | .bool false, lvl, fuel, rest, hf, _, _ => by
      cases fuel with
      | zero => exact absurd hf (Nat.not_lt_zero _)
      | succ f =>
          simp [ser, parseVal, lbr, rbr, litNull, litTrue, litFalse, List.isPrefixOf]
  | .num i, lvl, fuel, rest, hf, hr, _ => by
      cases fuel with
      | zero => exact absurd hf (Nat.not_lt_zero _)
      | succ f =>
          have hser : ser lvl (Json.num i) = intDec i := by simp [ser]
          rw [hser]
          obtain ⟨c, t, hct, hcd⟩ :
              ∃ c t, intDec i = c :: t ∧ (isDig c = true ∨ c = Char.ofNat 45) := by
            by_cases hi : i < 0
            · exact ⟨Char.ofNat 45, natDec i.natAbs, by simp [intDec, hi], Or.inr rfl⟩
            · by_cases h0 : i.natAbs = 0
              · refine ⟨digitChar 0, [], ?_, Or.inl (by decide)⟩
                rw [intDec, if_neg hi, h0, natDec_small 0 (by omega)]
                rfl
              · obtain ⟨c, t, hct, hdig, _⟩ := natDec_head_pos i.natAbs (by omega)
                exact ⟨c, t, by simp [intDec, hi, hct], Or.inl hdig⟩
          obtain ⟨g1, g2, g3, g4, g5, g6⟩ := numHead_blocks c hcd (t ++ rest)
          rw [hct, List.cons_append,
            parseVal_dispatch_num f c (t ++ rest) g1 g2 g3 g4 g5 g6,
            ← List.cons_append, ← hct]
          exact matchNumber_intDec i rest hr
  | .str s, lvl, fuel, rest, hf, _, _ => by
      cases fuel with
      | zero => exact absurd hf (Nat.not_lt_zero _)
      | succ f =>
          have hshape : ser lvl (.str s) ++ rest
              = Char.ofNat 34 :: (s.flatMap escapeChar ++ Char.ofNat 34 :: rest) := by
            simp [ser, strDec]
          rw [hshape, parseVal_quote,
            scanString_flat s _ [] rest (by
              have := flatMap_escape_len s
              simp only [List.length_append, List.length_cons]
              omega)]
          simp
  | .arr [], lvl, fuel, rest, hf, _, _ => by
      cases fuel with
      | zero => exact absurd hf (Nat.not_lt_zero _)
      | succ f =>
          simp [ser, parseVal, skipWs, isWsChar, lbr, rbr, litNull, litTrue, litFalse,
            List.isPrefixOf]
  | .arr (x :: xs), lvl, fuel, rest, hf, hr, hw => by
      cases fuel with
      | zero => exact absurd hf (Nat.not_lt_zero _)
      | succ f =>
          obtain ⟨hwx, hwxs⟩ : wf x = true ∧ wfList xs = true := by
            rw [wf_arr_eq, wfList_cons_eq, Bool.and_eq_true] at hw
            exact hw
          obtain ⟨c, t, hct, hcw, hc93⟩ := serHead (lvl + 1) x
          have harith : (ser (lvl + 1) x).length + (serArrTail (lvl + 1) xs).length + 1
              < f := by
            have hf2 := hf
            simp only [ser, List.length_cons, List.length_append, nlIndent,
              List.length_replicate] at hf2
            omega
          have key := rt_arr x xs (lvl + 1) f (nlIndent lvl) rest harith
            (nlIndent_ws lvl) hwx hwxs
          have hrew : ser (lvl + 1) x
                ++ (serArrTail (lvl + 1) xs ++ (nlIndent lvl ++ Char.ofNat 93 :: rest))
              = c :: (t ++ (serArrTail (lvl + 1) xs
                  ++ (nlIndent lvl ++ Char.ofNat 93 :: rest))) := by
            rw [hct]
            rfl
          have hskip2 : skipWs (nlIndent (lvl + 1)
                ++ (ser (lvl + 1) x ++ (serArrTail (lvl + 1) xs
                    ++ (nlIndent lvl ++ Char.ofNat 93 :: rest))))
              = c :: (t ++ (serArrTail (lvl + 1) xs
                  ++ (nlIndent lvl ++ Char.ofNat 93 :: rest))) := by
            rw [skipWs_nlIndent, hrew, skipWs_cons_not _ _ hcw]
          have hshape : ser lvl (.arr (x :: xs)) ++ rest
              = Char.ofNat 91 :: (nlIndent (lvl + 1)
                  ++ (ser (lvl + 1) x ++ (serArrTail (lvl + 1) xs
                      ++ (nlIndent lvl ++ Char.ofNat 93 :: rest)))) := by
            simp [ser, List.append_assoc]
          rw [hshape, parseVal_arr_red f _ c _ hskip2 hc93, ← hrew, key]
  | .obj [], lvl, fuel, rest, hf, _, _ => by
      cases fuel with
      | zero => exact absurd hf (Nat.not_lt_zero _)
      | succ f =>
          simp [ser, parseVal, skipWs, isWsChar, lbr, rbr, litNull, litTrue, litFalse,
            List.isPrefixOf]
  | .obj ((k, v) :: ms), lvl, fuel, rest, hf, hr, hw => by
      cases fuel with
      | zero => exact absurd hf (Nat.not_lt_zero _)
      | succ f =>
          have hwp : wfPairs ((k, v) :: ms) = true := by
            rw [← wf_obj_eq]
            exact hw
          have hfresh : ∀ kv ∈ (k, v) :: ms,
              noKey kv.1 ([] : List (List Char × Json)) = true :=
            fun kv _ => rfl
          have harith : (strDec k).length + (ser (lvl + 1) v).length
                + (serObjTail (lvl + 1) ms).length + 1 < f := by
            have hf2 := hf
            simp only [ser, strDec, List.length_cons, List.length_append, nlIndent,
              List.length_replicate] at hf2
            simp only [strDec, List.length_cons, List.length_append]
            omega
          have key := rt_obj k v ms (lvl + 1) f [] (nlIndent lvl) rest harith
            (nlIndent_ws lvl) hwp hfresh
          have hglue : Char.ofNat 34 :: (k.flatMap escapeChar
                ++ Char.ofNat 34 :: (Char.ofNat 58 :: Char.ofNat 32 :: (ser (lvl + 1) v
                  ++ (serObjTail (lvl + 1) ms ++ (nlIndent lvl ++ rbr :: rest)))))
              = strDec k ++ Char.ofNat 58 :: Char.ofNat 32 :: (ser (lvl + 1) v
                  ++ (serObjTail (lvl + 1) ms ++ (nlIndent lvl ++ rbr :: rest))) := by
            simp [strDec]
          have hskip2 : skipWs (nlIndent (lvl + 1)
                ++ (strDec k ++ Char.ofNat 58 :: Char.ofNat 32 :: (ser (lvl + 1) v
                  ++ (serObjTail (lvl + 1) ms ++ (nlIndent lvl ++ rbr :: rest)))))
              = Char.ofNat 34 :: (k.flatMap escapeChar
                  ++ Char.ofNat 34 :: (Char.ofNat 58 :: Char.ofNat 32 :: (ser (lvl + 1) v
                    ++ (serObjTail (lvl + 1) ms ++ (nlIndent lvl ++ rbr :: rest))))) := by
            rw [skipWs_nlIndent, ← hglue, skipWs_cons_not _ _ (by decide)]
          have hshape : ser lvl (.obj ((k, v) :: ms)) ++ rest
              = lbr :: (nlIndent (lvl + 1)
                  ++ (strDec k ++ Char.ofNat 58 :: Char.ofNat 32 :: (ser (lvl + 1) v
                    ++ (serObjTail (lvl + 1) ms ++ (nlIndent lvl ++ rbr :: rest))))) := by
            simp [ser, strDec, List.append_assoc]
          rw [hshape, parseVal_obj_red f _ _ hskip2, hglue, key]
          simp
termination_by v _ _ _ _ _ _ => sizeOf v
decreasing_by all_goals (simp_wf; omega)
/-- Parsing the serialized items of a nonempty array, then trailing
whitespace and the closing bracket, recovers the item list. -/
theorem rt_arr : ∀ (x : Json) (xs : List Json) (lvl fuel : Nat) (w rest : List Char),
    (ser lvl x).length + (serArrTail lvl xs).length + 1 < fuel →
    (∀ c ∈ w, isWsChar c = true) → wf x = true → wfList xs = true →
    parseArrLoop fuel (ser lvl x ++ (serArrTail lvl xs ++ (w ++ Char.ofNat 93 :: rest)))
      = some (x :: xs, rest)
  | x, [], lvl, fuel, w, rest, hf, hws, hwx, _ => by
      cases fuel with
      | zero => exact absurd hf (Nat.not_lt_zero _)
      | succ f =>
          rw [parseArrLoop_step]
          have hrest : numDelim (serArrTail lvl [] ++ (w ++ Char.ofNat 93 :: rest))
              = true := numDelim_wclose w _ rest hws rfl
          rw [rt_val x lvl f _ (by omega) hrest hwx]
          have hsk : skipWs (serArrTail lvl [] ++ (w ++ Char.ofNat 93 :: rest))
              = Char.ofNat 93 :: rest := by
            simp only [serArrTail, List.nil_append]
            rw [skipWs_ws_append w _ hws, skipWs_cons_not _ _ (by decide)]
          simp [hsk]
  | x, y :: ys, lvl, fuel, w, rest, hf, hws, hwx, hwxs => by
      cases fuel with
      | zero => exact absurd hf (Nat.not_lt_zero _)
      | succ f =>
          rw [parseArrLoop_step]
          have hrest : numDelim (serArrTail lvl (y :: ys) ++ (w ++ Char.ofNat 93 :: rest))
              = true := rfl
          rw [rt_val x lvl f _ (by omega) hrest hwx]
          obtain ⟨hwy, hwys⟩ : wf y = true ∧ wfList ys = true := by
            rw [wfList_cons_eq, Bool.and_eq_true] at hwxs
            exact hwxs
          have harith : (ser lvl y).length + (serArrTail lvl ys).length + 1 < f := by
            have hf2 := hf
            simp only [serArrTail, List.length_cons, List.length_append, nlIndent,
              List.length_replicate] at hf2
            omega
          have key := rt_arr y ys lvl f w rest harith hws hwy hwys
          have hskA : skipWs (serArrTail lvl (y :: ys) ++ (w ++ Char.ofNat 93 :: rest))
              = Char.ofNat 44 :: (nlIndent lvl ++ (ser lvl y
                  ++ (serArrTail lvl ys ++ (w ++ Char.ofNat 93 :: rest)))) := by
            simp only [serArrTail, List.cons_append, List.append_assoc, List.nil_append]
            rw [skipWs_cons_not _ _ (by decide)]
          have hskB : skipWs (nlIndent lvl ++ (ser lvl y
                ++ (serArrTail lvl ys ++ (w ++ Char.ofNat 93 :: rest))))
              = ser lvl y ++ (serArrTail lvl ys ++ (w ++ Char.ofNat 93 :: rest)) := by
            rw [skipWs_nlIndent, skipWs_ser]
          simp [hskA, hskB, key]
termination_by x xs _ _ _ _ _ _ _ _ => sizeOf x + sizeOf xs + 1
decreasing_by all_goals (simp_wf; omega)
/-- Parsing the serialized members of a nonempty object, then trailing
whitespace and the closing brace, appends them to the accumulated pairs. -/
theorem rt_obj : ∀ (k : List Char) (v : Json) (ms : List (List Char × Json))
    (lvl fuel : Nat) (acc : List (List Char × Json)) (w rest : List Char),
    (strDec k).length + (ser lvl v).length + (serObjTail lvl ms).length + 1 < fuel →
    (∀ c ∈ w, isWsChar c = true) →
    wfPairs ((k, v) :: ms) = true →
    (∀ kv ∈ (k, v) :: ms, noKey kv.1 acc = true) →
    parseObjLoop fuel acc
        (strDec k ++ Char.ofNat 58 :: Char.ofNat 32 :: (ser lvl v
          ++ (serObjTail lvl ms ++ (w ++ rbr :: rest))))
      = some (acc ++ (k, v) :: ms, rest)
  | k, v, [], lvl, fuel, acc, w, rest, hf, hws, hwp, hfresh => by
      cases fuel with
      | zero => exact absurd hf (Nat.not_lt_zero _)
      | succ f =>
          simp only [wfPairs_cons_eq, Bool.and_eq_true] at hwp
          obtain ⟨⟨_, hwv⟩, _⟩ := hwp
          have hwv2 : wf v = true := hwv
          have hshape : strDec k ++ Char.ofNat 58 :: Char.ofNat 32 :: (ser lvl v
                ++ (serObjTail lvl [] ++ (w ++ rbr :: rest)))
              = Char.ofNat 34 :: (k.flatMap escapeChar
                  ++ Char.ofNat 34 :: (Char.ofNat 58 :: Char.ofNat 32 :: (ser lvl v
                    ++ (serObjTail lvl [] ++ (w ++ rbr :: rest))))) := by
            simp [strDec]
          rw [hshape, parseObjLoop_step]
          have hscan := scanString_flat k
            ((k.flatMap escapeChar ++ Char.ofNat 34 :: (Char.ofNat 58 :: Char.ofNat 32
                :: (ser lvl v ++ (serObjTail lvl [] ++ (w ++ rbr :: rest))))).length + 1)
            []
            (Char.ofNat 58 :: Char.ofNat 32 :: (ser lvl v
              ++ (serObjTail lvl [] ++ (w ++ rbr :: rest))))
            (by
              have := flatMap_escape_len k
              simp only [List.length_append, List.length_cons]
              omega)
          have hsk58 := skipWs_cons_not (Char.ofNat 58)
            (Char.ofNat 32 :: (ser lvl v ++ (serObjTail lvl [] ++ (w ++ rbr :: rest))))
            (by decide)
          have hsp : skipWs (Char.ofNat 32 :: (ser lvl v
                ++ (serObjTail lvl [] ++ (w ++ rbr :: rest))))
              = ser lvl v ++ (serObjTail lvl [] ++ (w ++ rbr :: rest)) := by
            have h1 : skipWs (Char.ofNat 32 :: (ser lvl v
                  ++ (serObjTail lvl [] ++ (w ++ rbr :: rest))))
                = skipWs (ser lvl v ++ (serObjTail lvl [] ++ (w ++ rbr :: rest))) := by
              simp [skipWs, (by decide : isWsChar (Char.ofNat 32) = true)]
            rw [h1, skipWs_ser]
          have hdel : numDelim (serObjTail lvl [] ++ (w ++ rbr :: rest)) = true :=
            numDelim_wclose w _ rest hws rfl
          have hval := rt_val v lvl f (serObjTail lvl [] ++ (w ++ rbr :: rest))
            (by omega) hdel hwv2
          have hins := insertPair_fresh acc k v (hfresh (k, v) (by simp))
          have hsk : skipWs (serObjTail lvl [] ++ (w ++ rbr :: rest)) = rbr :: rest := by
            simp only [serObjTail, List.nil_append]
            rw [skipWs_ws_append w _ hws, skipWs_cons_not _ _ (by decide)]
          simp only [if_pos (rfl : Char.ofNat 34 = Char.ofNat 34)]
          rw [hscan]
          simp only [List.reverse_nil, List.nil_append, hsk58,
            if_pos (rfl : Char.ofNat 58 = Char.ofNat 58), hsp, hval, hins, hsk,
            if_pos (rfl : rbr = rbr), if_true, if_false]
  | k, v, (k2, v2) :: ms2, lvl, fuel, acc, w, rest, hf, hws, hwp, hfresh => by
      cases fuel with
      | zero => exact absurd hf (Nat.not_lt_zero _)
      | succ f =>
          simp only [wfPairs_cons_eq, Bool.and_eq_true] at hwp
          obtain ⟨⟨hkms, hwv⟩, hwms⟩ := hwp
          have hkms2 : noKey k ((k2, v2) :: ms2) = true := hkms
          have hwv2 : wf v = true := hwv
          have hshape : strDec k ++ Char.ofNat 58 :: Char.ofNat 32 :: (ser lvl v
                ++ (serObjTail lvl ((k2, v2) :: ms2) ++ (w ++ rbr :: rest)))
              = Char.ofNat 34 :: (k.flatMap escapeChar
                  ++ Char.ofNat 34 :: (Char.ofNat 58 :: Char.ofNat 32 :: (ser lvl v
                    ++ (serObjTail lvl ((k2, v2) :: ms2) ++ (w ++ rbr :: rest))))) := by
            simp [strDec]
          rw [hshape, parseObjLoop_step]
          have hscan := scanString_flat k
            ((k.flatMap escapeChar ++ Char.ofNat 34 :: (Char.ofNat 58 :: Char.ofNat 32
                :: (ser lvl v ++ (serObjTail lvl ((k2, v2) :: ms2)
                  ++ (w ++ rbr :: rest))))).length + 1)
            []
            (Char.ofNat 58 :: Char.ofNat 32 :: (ser lvl v
              ++ (serObjTail lvl ((k2, v2) :: ms2) ++ (w ++ rbr :: rest))))
            (by
              have := flatMap_escape_len k
              simp only [List.length_append, List.length_cons]
              omega)
          have hsk58 := skipWs_cons_not (Char.ofNat 58)
            (Char.ofNat 32 :: (ser lvl v ++ (serObjTail lvl ((k2, v2) :: ms2)
              ++ (w ++ rbr :: rest))))
            (by decide)
          have hsp : skipWs (Char.ofNat 32 :: (ser lvl v
                ++ (serObjTail lvl ((k2, v2) :: ms2) ++ (w ++ rbr :: rest))))
              = ser lvl v ++ (serObjTail lvl ((k2, v2) :: ms2) ++ (w ++ rbr :: rest)) := by
            have h1 : skipWs (Char.ofNat 32 :: (ser lvl v
                  ++ (serObjTail lvl ((k2, v2) :: ms2) ++ (w ++ rbr :: rest))))
                = skipWs (ser lvl v ++ (serObjTail lvl ((k2, v2) :: ms2)
                    ++ (w ++ rbr :: rest))) := by
              simp [skipWs, (by decide : isWsChar (Char.ofNat 32) = true)]
            rw [h1, skipWs_ser]
          have hdel : numDelim (serObjTail lvl ((k2, v2) :: ms2)
              ++ (w ++ rbr :: rest)) = true := rfl
          have hval := rt_val v lvl f (serObjTail lvl ((k2, v2) :: ms2)
              ++ (w ++ rbr :: rest))
            (by omega) hdel hwv2
          have hins := insertPair_fresh acc k v (hfresh (k, v) (by simp))
          have hwp2 : wfPairs ((k2, v2) :: ms2) = true := by
            simp only [wfPairs_cons_eq, Bool.and_eq_true]
            exact hwms
          have hfresh2 : ∀ kv ∈ (k2, v2) :: ms2,
              noKey kv.1 (acc ++ [(k, v)]) = true := by
            intro kv hm
            rw [noKey_append, Bool.and_eq_true]
            refine ⟨hfresh kv (by simp [hm]), ?_⟩
            have hne : kv.1 ≠ k := noKey_mem k ((k2, v2) :: ms2) hkms2 kv hm
            simp [noKey, hne.symm]
          have harith : (strDec k2).length + (ser lvl v2).length
                + (serObjTail lvl ms2).length + 1 < f := by
            have hf2 := hf
            simp only [serObjTail, strDec, List.length_cons, List.length_append,
              nlIndent, List.length_replicate] at hf2
            simp only [strDec, List.length_cons, List.length_append]
            omega
          have key := rt_obj k2 v2 ms2 lvl f (acc ++ [(k, v)]) w rest harith
            hws hwp2 hfresh2
          have hskA : skipWs (serObjTail lvl ((k2, v2) :: ms2) ++ (w ++ rbr :: rest))
              = Char.ofNat 44 :: (nlIndent lvl ++ (strDec k2
                  ++ Char.ofNat 58 :: Char.ofNat 32 :: (ser lvl v2
                    ++ (serObjTail lvl ms2 ++ (w ++ rbr :: rest))))) := by
            simp only [serObjTail, List.cons_append, List.append_assoc, List.nil_append]
            rw [skipWs_cons_not _ _ (by decide)]
          have hskB : skipWs (nlIndent lvl ++ (strDec k2
                ++ Char.ofNat 58 :: Char.ofNat 32 :: (ser lvl v2
                  ++ (serObjTail lvl ms2 ++ (w ++ rbr :: rest)))))
              = strDec k2 ++ Char.ofNat 58 :: Char.ofNat 32 :: (ser lvl v2
                  ++ (serObjTail lvl ms2 ++ (w ++ rbr :: rest))) := by
            rw [skipWs_nlIndent, skipWs_strDec]
          simp only [if_pos (rfl : Char.ofNat 34 = Char.ofNat 34)]
          rw [hscan]
          simp only [List.reverse_nil, List.nil_append, hsk58,
            if_pos (rfl : Char.ofNat 58 = Char.ofNat 58), hsp, hval, hins, hskA,
            if_neg (by decide : ¬(Char.ofNat 44 = rbr)),
            if_pos (rfl : Char.ofNat 44 = Char.ofNat 44), hskB, key,
            List.append_assoc, List.cons_append, if_true, if_false]
termination_by k v ms _ _ _ _ _ _ _ _ _ => sizeOf v + sizeOf ms + 1
decreasing_by all_goals (simp_wf; omega)
end

/-- The codec round trip: `json.load` inverts `json.dump` on every
well-formed document. -/
theorem loads_dumps (v : Json) (h : wf v = true) : loads (dumps v) = some v := by
  have hskip : skipWs (ser 0 v) = ser 0 v := by
    have h2 := skipWs_ser 0 v []
    rwa [List.append_nil] at h2
  have hval := rt_val v 0 ((ser 0 v).length + 1) [] (by omega) rfl h
  rw [List.append_nil] at hval
  show loads (ser 0 v) = some v
  simp [loads, hskip, hval, skipWs]

/-! ## C3 — the write/read round trip -/

/-- C3: a successful `safe_json_write` of a well-formed document followed
by `safe_json_read` of the same path returns a value equal to what was
written, whatever was on the filesystem before — including documents
holding empty lists and empty maps. -/
theorem C3_round_trip (cwd : List (List Char)) (fs : Fs) (p : PyPath) (d : Json)
    (v : Json) (hv : wf v = true) :
    (safe_json_write cwd fs p v allOk).ret = true ∧
      (safe_json_read cwd (safe_json_write cwd fs p v allOk).fs p d true).ret = v := by
  refine ⟨rfl, ?_⟩
  have hfs : (safe_json_write cwd fs p v allOk).fs p = some (dumps v) := by
    simp [safe_json_write, allOk, fsSet]
  simp [safe_json_read, file_lock_acquire, hfs, loads_dumps v hv]

/-- C3 witness: the round trip at a document holding numbers, booleans,
`null`, an escaped string, an empty list and an empty map. -/
theorem C3_round_trip_witness :
    wf vSample = true ∧
      ((safe_json_write cwdHome fsEmpty pData vSample allOk).ret = true ∧
        (safe_json_read cwdHome (safe_json_write cwdHome fsEmpty pData vSample allOk).fs
            pData .null true).ret = vSample) :=
  ⟨by decide, C3_round_trip cwdHome fsEmpty pData .null vSample (by decide)⟩

/-- C9 witness: two equal spellings of `data.json` share the mutex and do
not duplicate the registry entry. -/
theorem C9_amended_witness :
    lockKey cwdHome pData = lockKey cwdHome pData ∧
      (lockKey cwdHome ⟨false, [["x".toList].head!]⟩
          = lockKey cwdHome ⟨true, cwdHome ++ [["x".toList].head!]⟩ ∧
        (getMemoryLock ((getMemoryLock [] cwdHome pData).2) cwdHome pData).1
          = (getMemoryLock [] cwdHome pData).1 ∧
        (getMemoryLock ((getMemoryLock [] cwdHome pData).2) cwdHome pData).2
          = (getMemoryLock [] cwdHome pData).2) :=
  ⟨rfl, C9_amended [] cwdHome [["x".toList].head!] pData pData rfl⟩

/-! ## C1 — no lost updates between concurrent updaters -/

/-- Every step of every thread preserves the machine invariant. -/
theorem UInv_step {n : Nat} {marker : Fin n → Nat} {s s2 : UMachine n}
    (hinj : Function.Injective marker)
    (hstep : UStep n marker s s2) (hinv : UInv n marker s) : UInv n marker s2 := by
  obtain ⟨hA, hB, hC⟩ := hinv
  cases hstep with
  | acquire t hidle hown =>
      refine ⟨?_, ?_, ?_⟩
      · intro u hu
        by_cases hut : u = t
        · subst hut; rfl
        · simp only [Function.update_noteq hut] at hu
          have h2 := hA u hu
          rw [hown] at h2
          exact absurd h2 (by simp)
      · intro u d hu
        by_cases hut : u = t
        · subst hut
          simp only [Function.update_same] at hu
          exact absurd hu (by simp)
        · simp only [Function.update_noteq hut] at hu
          exact hB u d hu
      · intro u
        by_cases hut : u = t
        · subst hut
          simp only [Function.update_same]
          have h2 := hC u
          rw [hidle] at h2
          simpa using h2
        · simp only [Function.update_noteq hut]
          exact hC u
  | read t hlock hown =>
      refine ⟨?_, ?_, ?_⟩
      · intro u hu
        by_cases hut : u = t
        · subst hut; exact hown
        · simp only [Function.update_noteq hut] at hu
          exact hA u hu
      · intro u d hu
        by_cases hut : u = t
        · subst hut
          simp only [Function.update_same] at hu
          cases hu
          rfl
        · simp only [Function.update_noteq hut] at hu
          exact hB u d hu
      · intro u
        by_cases hut : u = t
        · subst hut
          simp only [Function.update_same]
          have h2 := hC u
          rw [hlock] at h2
          simpa using h2
        · simp only [Function.update_noteq hut]
          exact hC u
  | write t snap hread hown =>
      have hdoc : s.doc = snap := hB t snap hread
      refine ⟨?_, ?_, ?_⟩
      · intro u hu
        by_cases hut : u = t
        · subst hut; exact hown
        · simp only [Function.update_noteq hut] at hu
          exact hA u hu
      · intro u d hu
        by_cases hut : u = t
        · subst hut
          simp only [Function.update_same] at hu
          exact absurd hu (by simp)
        · simp only [Function.update_noteq hut] at hu
          have h2 := hA u ⟨by rw [hu]; simp, by rw [hu]; simp⟩
          rw [hown] at h2
          injection h2 with h3
          exact absurd h3.symm hut
      · intro u
        by_cases hut : u = t
        · subst hut
          simp only [Function.update_same]
          have h2 := hC u
          rw [hread] at h2
          simp only [(by simp : ¬(TPhase.readDone snap = TPhase.written
            ∨ TPhase.readDone snap = TPhase.finished)), if_false] at h2
          rw [← hdoc, List.count_append, h2]
          simp
        · simp only [Function.update_noteq hut]
          have hne : marker t ≠ marker u := fun hq => hut (hinj hq).symm
          rw [← hdoc, List.count_append, hC u]
          simp [List.count_cons, hne]
  | release t hwr hown =>
      refine ⟨?_, ?_, ?_⟩
      · intro u hu
        by_cases hut : u = t
        · subst hut
          simp only [Function.update_same] at hu
          exact absurd rfl hu.2
        · simp only [Function.update_noteq hut] at hu
          have h2 := hA u hu
          rw [hown] at h2
          injection h2 with h3
          exact absurd h3.symm hut
      · intro u d hu
        by_cases hut : u = t
        · subst hut
          simp only [Function.update_same] at hu
          exact absurd hu (by simp)
        · simp only [Function.update_noteq hut] at hu
          exact hB u d hu
      · intro u
        by_cases hut : u = t
        · subst hut
          simp only [Function.update_same]
          have h2 := hC u
          rw [hwr] at h2
          simpa using h2
        · simp only [Function.update_noteq hut]
          exact hC u

/-- The invariant holds in every reachable state. -/
theorem UInv_reach {n : Nat} {marker : Fin n → Nat} {init : List Nat} {s : UMachine n}
    (hinj : Function.Injective marker) (hfresh : ∀ t, marker t ∉ init)
    (h : UReach n marker (uInit n init) s) : UInv n marker s := by
  induction h with
  | refl =>
      refine ⟨?_, ?_, ?_⟩
      · intro u hu
        exact absurd rfl hu.1
      · intro u d hu
        exact absurd hu (by simp [uInit])
      · intro u
        simp [uInit, List.count_eq_zero.mpr (hfresh u)]
  | tail hr hstep ih => exact UInv_step hinj hstep ih

/-- C1: for `n` threads that each run `safe_json_update` on the same path
appending a distinct fresh marker, every interleaving the mutex admits —
each thread holds the path's single in-process mutex for its whole
read-transform-write sequence — ends, once all threads have finished, with
a document containing every thread's marker exactly once: no update is
lost and none is duplicated. -/
theorem C1_no_lost_updates (n : Nat) (marker : Fin n → Nat) (init : List Nat)
    (s : UMachine n) (hinj : Function.Injective marker)
    (hfresh : ∀ t, marker t ∉ init) (hreach : UReach n marker (uInit n init) s)
    (hdone : ∀ t, s.ph t = TPhase.finished) :
    ∀ t, s.doc.count (marker t) = 1 := by
  intro t
  have hinv := UInv_reach hinj hfresh hreach
  have h2 := hinv.2.2 t
  rw [hdone t] at h2
  simpa using h2

/-- C1 witness: two threads, markers `0` and `1` over an initially empty
document, run one after the other; the schedule is exhibited step by step
and the final document holds each marker exactly once. -/
theorem C1_no_lost_updates_witness :
    Function.Injective marker2 ∧ (∀ t : Fin 2, marker2 t ∉ ([] : List Nat)) ∧
      UReach 2 marker2 (uInit 2 []) uRun2 ∧ (∀ t, uRun2.ph t = TPhase.finished) ∧
      (∀ t : Fin 2, uRun2.doc.count (marker2 t) = 1) := by
  have c1 : UReach 2 marker2 (uInit 2 [])
      ⟨[], some 0, Function.update (fun _ => TPhase.idle) 0 TPhase.locked⟩ :=
    Relation.ReflTransGen.single (UStep.acquire _ 0 rfl rfl)
  have c2 : UReach 2 marker2 (uInit 2 [])
      ⟨[], some 0, Function.update (Function.update
        (fun _ => TPhase.idle) 0 TPhase.locked) 0 (TPhase.readDone [])⟩ :=
    c1.tail (UStep.read _ 0 rfl rfl)
  have c3 : UReach 2 marker2 (uInit 2 [])
      ⟨[0], some 0, Function.update (Function.update (Function.update
        (fun _ => TPhase.idle) 0 TPhase.locked) 0 (TPhase.readDone []))
        0 TPhase.written⟩ :=
    c2.tail (UStep.write _ 0 [] rfl rfl)
  have c4 : UReach 2 marker2 (uInit 2 [])
      ⟨[0], none, Function.update (Function.update (Function.update (Function.update
        (fun _ => TPhase.idle) 0 TPhase.locked) 0 (TPhase.readDone []))
        0 TPhase.written) 0 TPhase.finished⟩ :=
    c3.tail (UStep.release _ 0 rfl rfl)
  have c5 : UReach 2 marker2 (uInit 2 [])
      ⟨[0], some 1, Function.update (Function.update (Function.update (Function.update
        (Function.update (fun _ => TPhase.idle) 0 TPhase.locked) 0 (TPhase.readDone []))
        0 TPhase.written) 0 TPhase.finished) 1 TPhase.locked⟩ :=
    c4.tail (UStep.acquire _ 1 rfl rfl)
  have c6 : UReach 2 marker2 (uInit 2 [])
      ⟨[0], some 1, Function.update (Function.update (Function.update (Function.update
        (Function.update (Function.update (fun _ => TPhase.idle) 0 TPhase.locked)
        0 (TPhase.readDone [])) 0 TPhase.written) 0 TPhase.finished) 1 TPhase.locked)
        1 (TPhase.readDone [0])⟩ :=
    c5.tail (UStep.read _ 1 rfl rfl)
  have c7 : UReach 2 marker2 (uInit 2 [])
      ⟨[0, 1], some 1, Function.update (Function.update (Function.update
        (Function.update (Function.update (Function.update (Function.update
        (fun _ => TPhase.idle) 0 TPhase.locked) 0 (TPhase.readDone []))
        0 TPhase.written) 0 TPhase.finished) 1 TPhase.locked) 1 (TPhase.readDone [0]))
        1 TPhase.written⟩ :=
    c6.tail (UStep.write _ 1 [0] rfl rfl)
  have c8 : UReach 2 marker2 (uInit 2 []) uRun2 :=
    c7.tail (UStep.release _ 1 rfl rfl)
  refine ⟨by decide, by simp, c8, by decide, ?_⟩
  intro t
  exact C1_no_lost_updates 2 marker2 [] uRun2 (by decide) (by simp) c8 (by decide) t

end FileLockService
